import Mathlib

/-!
Verification development for the BossNet attention/decoding core and its data
preparation layer.

The development shallowly embeds the three source files:

* `src/memn2n/attention_wrapper.py` — the hierarchical attention scorer
  (`_maybe_mask_score`, `_luong_score`, `_luong_word_score`,
  `CustomAttention.__call__`) and the `linear` combination helper;
* `src/memn2n/dynamic_decoder.py` — the `dynamic_decode` driver loop
  (its `condition` and `body` inner functions, the impute-finished logic,
  and the final stacking/transposition stage);
* `src/data.py` — the `Data` vectorization routines
  (`_extract_data_items`, the OOV-id assignment inside `_vectorize_stories`,
  and `_vectorize_answers`).

Modelling conventions:

* Tensors are nested lists of rationals; a tensor of shape
  `[batch, time]` becomes `List (List ℚ)`, batch index outermost.
* The floating-point value `-inf` (the default `score_mask_value`) is
  modelled by `none` in `Option ℚ`; `exp (-inf) = 0` becomes
  `expExt e none = 0`.  The exponential inside `softmax` is abstracted as a
  parameter `e : ℚ → ℚ` that theorems assume strictly positive, which is the
  only property of `exp` the claims rely on.
* Graph-time failures (`assert_positive`, `ValueError`) are modelled by
  `Option`-valued functions returning `none`.
* The `tf.while_loop` of `dynamic_decode` is modelled as a guarded step
  function iterated a given number of times; the loop body is a direct
  transcription of the Python `body`.
* TensorArray `write` at index `time` is modelled on lists: it appends when
  writing one position past the end (the only case the loop exercises,
  since `time` always equals the buffer length) and sets in place otherwise.
* Python's stable in-place `list.sort` is modelled by `List.mergeSort`
  (also a stable sort, hence producing the identical permutation), with the
  mutation of the caller's list rendered in state-passing style: the
  function returns the new value of the caller's list.
-/

namespace BossNet

/-! ### Special token indices (src/data.py lines 5-8) -/

def PAD_INDEX : Nat := 0
def UNK_INDEX : Nat := 1
def GO_SYMBOL_INDEX : Nat := 2
def EOS_INDEX : Nat := 3

/-! ### Generic list helpers used by the embedding -/

/-- Three-list pointwise zip, the shape `tf` broadcasting gives to
`array_ops.where(cond, x, y)` applied to co-indexed batch tensors. -/
def zipWith3 (f : α → β → γ → δ) : List α → List β → List γ → List δ
  | a :: as, b :: bs, c :: cs => f a b c :: zipWith3 f as bs cs
  | _, _, _ => []

/-- Model of `array_ops.where(cond, x, y)` on a batch dimension: per batch
element, select from `x` when the condition holds, else from `y`. -/
def whereList (cond : List Bool) (x y : List α) : List α :=
  zipWith3 (fun c a b => if c then a else b) cond x y

/-- Model of `TensorArray.write i v` on a list buffer.  In the decode loop the
write index always equals the current buffer length, so the write appends;
other in-range indices are set in place. -/
def taWrite (ta : List α) (i : Nat) (v : α) : List α :=
  if i = ta.length then ta ++ [v] else ta.set i v

/-- Dot product of two vectors, the innermost contraction of
`math_ops.matmul(query, keys, transpose_b=True)`. -/
def dot (xs ys : List ℚ) : ℚ := (List.zipWith (· * ·) xs ys).sum

/-! ### Attention scorer (src/memn2n/attention_wrapper.py) -/

/-- Embedding of `_luong_score(query, keys, scale)` for one batch row
(lines 261-318): the dot product of the query with every sentence key,
optionally scaled by the learned scalar `g`. -/
def luong_score (scale : Bool) (g : ℚ) (query : List ℚ) (keys : List (List ℚ)) :
    List ℚ :=
  let s := keys.map (dot query)
  if scale then s.map (g * ·) else s

/-- Embedding of `_luong_word_score(query, word_keys, scale, size)` for one
batch row (lines 320-381).  The two `tf.transpose` calls and the `map_fn`
reduce, for a single batch row, to the dot product of the query against every
word vector of every sentence, giving shape `[sentences, words]`; the optional
scale multiplies every raw word score by `g`. -/
def luong_word_score (scale : Bool) (g : ℚ) (query : List ℚ)
    (word_keys : List (List (List ℚ))) : List (List ℚ) :=
  let s := word_keys.map (fun sent => sent.map (dot query))
  if scale then s.map (fun row => row.map (g * ·)) else s

/-- Embedding of `_maybe_mask_score(score, memory_sequence_length,
score_mask_value)` (lines 121-130) over a whole batch.  `none` lengths skip
masking; otherwise `assert_positive` rejects the whole batch (result `none`)
as soon as any length is non-positive, and each surviving row keeps its score
at positions `i < L` and carries `score_mask_value` elsewhere
(`sequence_mask` + `where`).  The mask value `none : Option ℚ` is the default
`float("-inf")`. -/
def maybe_mask_score (score : List (List ℚ)) (lengths : Option (List Int))
    (score_mask_value : Option ℚ) : Option (List (List (Option ℚ))) :=
  match lengths with
  | none => some (score.map (fun row => row.map some))
  | some Ls =>
    if Ls.all (fun L => decide (0 < L)) then
      some (List.zipWith
        (fun row L => row.enum.map
          (fun p => if (p.1 : Int) < L then some p.2 else score_mask_value))
        score Ls)
    else
      none

/-- Weight an extended score contributes to the softmax normalizer: the
abstract exponential `e` on finite scores, and `exp (-inf) = 0` on the mask
value `none`. -/
def expExt (e : ℚ → ℚ) : Option ℚ → ℚ
  | none => 0
  | some x => e x

/-- Embedding of `nn_ops.softmax` (the default `probability_fn` of
`CustomAttention`) on one masked score row: exponentiate with `e` and
normalize by the row sum. -/
def softmaxExt (e : ℚ → ℚ) (row : List (Option ℚ)) : List ℚ :=
  let ws := row.map (expExt e)
  ws.map (· / ws.sum)

/-- Result of `CustomAttention.__call__`: the sentence alignment
`[batch, sentences]` and the flattened word alignment
`[batch, sentences * words]`. -/
structure AttnResult where
  alignments : List (List ℚ)
  word_alignments : List (List ℚ)
deriving DecidableEq, Repr

/-- Embedding of `CustomAttention.__call__(query, previous_alignments)`
(lines 449-472) over a batch, taking the prepared memory (`self._keys`,
`self._word_values`) and the line-memory valid lengths as inputs.

Transcription of the body:

* `score = _luong_score(query, keys, scale)`;
* `word_scores = _luong_word_score(query, word_values, scale, ...)`;
* `alignments = probability_fn(_maybe_mask_score(score, lengths, mask))`
  with `probability_fn = softmax`;
* `word_alignments = multiply(transpose(word_scores), expand_dims(score, 1))`
  transposed back and reshaped to `[batch, -1]` — note the multiplier is the
  raw `score` tensor from the first step, not `alignments`; for one batch row
  the two transposes cancel and the reshape is a flatten, so the row is the
  concatenation over sentences `s` of `word_scores[s] * score[s]`. -/
def CustomAttention_call (e : ℚ → ℚ) (scale : Bool) (g : ℚ)
    (score_mask_value : Option ℚ)
    (query : List (List ℚ)) (keys : List (List (List ℚ)))
    (word_values : List (List (List (List ℚ))))
    (line_lengths : Option (List Int)) : Option AttnResult :=
  let score := List.zipWith (luong_score scale g) query keys
  let word_scores := List.zipWith (luong_word_score scale g) query word_values
  (maybe_mask_score score line_lengths score_mask_value).map
    (fun masked =>
      { alignments := masked.map (softmaxExt e)
        word_alignments := List.zipWith
          (fun ws sc => (List.zipWith (fun sent_ws s => sent_ws.map (· * s)) ws sc).flatten)
          word_scores score })

/-! ### The `linear` combination step (src/memn2n/attention_wrapper.py lines 563-607) -/

/-- Concatenation of a list of matrices along axis 1
(`tf.concat(axis=1, values=args)`); with a single argument the code calls
`tf.matmul(args[0], matrix)` directly, which coincides with concatenating
the singleton list. -/
def concatCols : List (List (List ℚ)) → List (List ℚ)
  | [] => []
  | [m] => m
  | m :: ms => List.zipWith (· ++ ·) m (concatCols ms)

/-- Matrix product `A · B` on list matrices. -/
def matMul (A B : List (List ℚ)) : List (List ℚ) :=
  A.map (fun row => B.transpose.map (dot row))

/-- Embedding of `linear(args, output_size, bias, ...)` (lines 563-607).
`args = none` models Python `None`; the function raises (`none` result) when
`args` is `None` or an empty list, and otherwise multiplies the column-wise
concatenation of the arguments by the weight matrix, adding the bias row when
requested.  The static 2-D shape checks are carried by the types. -/
def linear (args : Option (List (List (List ℚ)))) (matrix : List (List ℚ))
    (bias : Bool) (bias_term : List ℚ) : Option (List (List ℚ)) :=
  match args with
  | none => none
  | some argList =>
    if argList.isEmpty then none
    else
      let res := matMul (concatCols argList) matrix
      some (if bias then res.map (fun row => List.zipWith (· + ·) row bias_term)
            else res)

/-! ### Dynamic decode driver (src/memn2n/dynamic_decoder.py lines 173-352)

The decoder passed to `dynamic_decode` is abstracted as a step function plus
the data `initialize()` returns, all bundled into `DecodeParams`:

* `α` — one batch element of a step output (the `BasicDecoderOutput` row);
* `A`/`P` — one per-step attention / copy-gate emission (the tensor written
  to the corresponding TensorArray at each step);
* `β` — the payload of one state field;
* `ι` — the (structure of) decoder inputs.

A decode state is a list of `StateField`s so that the scalar / TensorArray /
batched trichotomy of `_maybe_copy_state` is visible in the model. -/

/-- One field of the (structure of) decoder state threaded through the loop:
a rank-0 scalar, a TensorArray history buffer, or an ordinary batched tensor
with one payload per batch element. -/
inductive StateField (β : Type) where
  | scalarF (v : β)
  | taF (vs : List β)
  | batchedF (vs : List β)
deriving DecidableEq, Repr

/-- Return value of `decoder.step(time, inputs, state)` in
`BasicDecoder.step` order: `(outputs, attention, p_gens, next_state,
next_inputs, finished)` (dynamic_decoder.py line 154). -/
structure StepResult (α A P β ι : Type) where
  outputs : List α
  attention : A
  p_gens : P
  state : List (StateField β)
  inputs : ι
  finished : List Bool
deriving DecidableEq, Repr

/-- Everything `dynamic_decode` obtains from its arguments and from
`decoder.initialize()`: the step function, the initial finished flags, inputs
and state, the `zero_outputs` structure built by `_create_zero_outputs`, and
the `impute_finished` / `maximum_iterations` / `output_time_major` settings.
`finalize?` is the optional decoder-specific finalize pass; `none` models a
decoder whose `finalize` raises `NotImplementedError`. -/
structure DecodeParams (α A P β ι : Type) where
  step : Nat → ι → List (StateField β) → StepResult α A P β ι
  initFinished : List Bool
  initInputs : ι
  initState : List (StateField β)
  zeroOutputs : List α
  imputeFinished : Bool
  maxIter : Option Nat
  outputTimeMajor : Bool
  finalize? : Option (List (List α) → List (StateField β) → List Nat →
    List (List α) × List (StateField β))

/-- The mutable tuple of `tf.while_loop` loop variables:
`(time, outputs_ta, state, inputs, finished, sequence_lengths, attention,
p_gens)`. -/
structure LoopState (α A P β ι : Type) where
  time : Nat
  outputsTA : List (List α)
  state : List (StateField β)
  inputs : ι
  finished : List Bool
  seqLens : List Nat
  attentionTA : List A
  pGensTA : List P
deriving DecidableEq, Repr

/-- Embedding of `_maybe_copy_state(new, cur)` (lines 302-309): TensorArrays
and rank-0 scalars pass the new value through; every other state field keeps
the previous value for batch elements already finished
(`array_ops.where(finished, cur, new)`).  A constructor mismatch cannot occur
because `nest.assert_same_structure(state, decoder_state)` has already run;
the catch-all returns the new value. -/
def maybe_copy_state (finished : List Bool) :
    StateField β → StateField β → StateField β
  | .scalarF v, .scalarF _ => .scalarF v
  | .taF vs, .taF _ => .taF vs
  | .batchedF new, .batchedF cur => .batchedF (whereList finished cur new)
  | new, _ => new

/-- Emission selection of the loop body (lines 292-299): with
`impute_finished`, outputs of batch elements already finished before the step
are replaced by the zero outputs (`where(finished, zero, out)`). -/
def decodeEmit (imputeFinished : Bool) (finished : List Bool)
    (zeroOutputs outputs : List α) : List α :=
  if imputeFinished then whereList finished zeroOutputs outputs else outputs

/-- State selection of the loop body (lines 301-315): with `impute_finished`,
`_maybe_copy_state` is mapped over the new and previous state structures;
otherwise the decoder's new state is taken unconditionally. -/
def decodeNextState (imputeFinished : Bool) (finished : List Bool)
    (decoderState prevState : List (StateField β)) : List (StateField β) :=
  if imputeFinished then
    List.zipWith (maybe_copy_state finished) decoderState prevState
  else decoderState

/-- Embedding of the `body` of the while loop (lines 261-324):

* call `decoder.step(time, inputs, state)`;
* `next_finished = decoder_finished ∨ finished`, additionally forced true
  when `time + 1 ≥ maximum_iterations`;
* `next_sequence_lengths = where(¬finished ∧ next_finished,
  fill(shape(sequence_lengths), time+1), sequence_lengths)`;
* impute-finished output zeroing and state copy-through;
* write outputs, attention and copy gates into their TensorArrays at `time`;
* advance `time` by one. -/
def decodeBody (p : DecodeParams α A P β ι) (ls : LoopState α A P β ι) :
    LoopState α A P β ι :=
  let r := p.step ls.time ls.inputs ls.state
  let nf1 := List.zipWith (· || ·) r.finished ls.finished
  let nf := match p.maxIter with
    | none => nf1
    | some M => nf1.map (fun b => b || decide (ls.time + 1 ≥ M))
  let mask := List.zipWith (fun f n => !f && n) ls.finished nf
  let nsl := whereList mask (List.replicate ls.seqLens.length (ls.time + 1))
    ls.seqLens
  let emit := decodeEmit p.imputeFinished ls.finished p.zeroOutputs r.outputs
  let nstate := decodeNextState p.imputeFinished ls.finished r.state ls.state
  { time := ls.time + 1
    outputsTA := taWrite ls.outputsTA ls.time emit
    state := nstate
    inputs := r.inputs
    finished := nf
    seqLens := nsl
    attentionTA := taWrite ls.attentionTA ls.time r.attention
    pGensTA := taWrite ls.pGensTA ls.time r.p_gens }

/-- Embedding of the loop-variable initialization (lines 221-255):
`initial_finished` is forced when `0 ≥ maximum_iterations`,
`initial_sequence_lengths = zeros_like(initial_finished)`, `time = 0`, and
all three TensorArrays start empty. -/
def initialLoopState (p : DecodeParams α A P β ι) : LoopState α A P β ι :=
  let f0 := match p.maxIter with
    | none => p.initFinished
    | some M => p.initFinished.map (fun b => b || decide (0 ≥ M))
  { time := 0
    outputsTA := []
    state := p.initState
    inputs := p.initInputs
    finished := f0
    seqLens := f0.map (fun _ => 0)
    attentionTA := []
    pGensTA := [] }

/-- Embedding of the loop `condition` (lines 257-259):
continue while not all batch elements are finished. -/
def decodeCond (ls : LoopState α A P β ι) : Bool :=
  !(ls.finished.all id)

/-- Guarded iteration of the loop body, `n` bounding the number of steps:
each step runs `decodeBody` only while `decodeCond` holds, exactly like
`tf.while_loop(condition, body, ...)`. -/
def decodeStepN (p : DecodeParams α A P β ι) :
    Nat → LoopState α A P β ι → LoopState α A P β ι
  | 0, ls => ls
  | n + 1, ls => if decodeCond ls then decodeStepN p n (decodeBody p ls) else ls

/-- Return value of `dynamic_decode` (line 352): `(final_outputs, final_state,
final_sequence_lengths, final_attention, final_p_gens)`. -/
structure DecodeResult (α A P β ι : Type) where
  finalOutputs : List (List α)
  finalState : List (StateField β)
  finalSeqLens : List Nat
  finalAttention : List A
  finalPGens : List P
deriving DecidableEq, Repr

/-- Embedding of the post-loop stage of `dynamic_decode` (lines 336-352):
stack the output TensorArray (time-major `[time, batch, ...]`), run the
decoder's `finalize` when implemented, transpose the outputs to batch-major
unless `output_time_major` was requested, and return the sequence lengths,
attention buffer and copy-gate buffer as they left the loop — the latter two
TensorArrays are returned raw, neither stacked nor transposed. -/
def finalizeDecode (p : DecodeParams α A P β ι) (ls : LoopState α A P β ι) :
    DecodeResult α A P β ι :=
  let stacked := ls.outputsTA
  let fo_fs := match p.finalize? with
    | some f => f stacked ls.state ls.seqLens
    | none => (stacked, ls.state)
  { finalOutputs := if p.outputTimeMajor then fo_fs.1 else fo_fs.1.transpose
    finalState := fo_fs.2
    finalSeqLens := ls.seqLens
    finalAttention := ls.attentionTA
    finalPGens := ls.pGensTA }

/-- Embedding of `dynamic_decode` itself: initialize, iterate the guarded
body at most `fuel` times, then run the post-loop stage. -/
def dynamic_decode (p : DecodeParams α A P β ι) (fuel : Nat) :
    DecodeResult α A P β ι :=
  finalizeDecode p (decodeStepN p fuel (initialLoopState p))

/-! ### Data vectorization (src/data.py)

Words are modelled as natural numbers; the decoder's closed vocabulary is a
partial map `Nat → Option Nat` standing for the Python dict membership test
`w in decoder_vocab` together with the lookup `decoder_vocab[w]`. -/

/-- One entry of the `data` list handed to `Data.__init__`:
the 4-tuple `(story, query, answer, dialog_id)`. -/
structure DataItem where
  story : List (List Nat)
  query : List Nat
  answer : List Nat
  dialogId : Nat
deriving DecidableEq, Repr

/-- Embedding of `Data._extract_data_items` (src/data.py lines 88-94).
Python sorts the caller's list in place with
`data.sort(key=lambda x: len(x[0]), reverse=True)` — a stable sort by
non-increasing story length, modelled by the stable `List.mergeSort` — and
then projects the four components from the sorted list.  The first component
of the result is the new value of the caller's (mutated) list. -/
def extract_data_items (data : List DataItem) :
    List DataItem × List (List (List Nat)) × List (List Nat) × List (List Nat)
      × List Nat :=
  let sorted := data.mergeSort
    (fun a b => decide (b.story.length ≤ a.story.length))
  (sorted, sorted.map (·.story), sorted.map (·.query), sorted.map (·.answer),
   sorted.map (·.dialogId))

/-- Embedding of the inner OOV-id loop of `Data._vectorize_stories`
(src/data.py lines 123-132) over one sentence: threading the per-example
`oov_words` accumulator, each word in the decoder vocabulary keeps its
vocabulary id; a word outside it gets `decode_vocab_size + len(oov_words)`
on first appearance (and is appended to `oov_words`) and
`decode_vocab_size + oov_words.index(w)` on every later occurrence. -/
def oov_sentence_ids (decoder_vocab : Nat → Option Nat) (V : Nat) :
    List Nat → List Nat → List Nat × List Nat
  | oov_words, [] => ([], oov_words)
  | oov_words, w :: ws =>
    match decoder_vocab w with
    | some idw =>
      let r := oov_sentence_ids decoder_vocab V oov_words ws
      (idw :: r.1, r.2)
    | none =>
      if w ∈ oov_words then
        let r := oov_sentence_ids decoder_vocab V oov_words ws
        ((V + oov_words.indexOf w) :: r.1, r.2)
      else
        let r := oov_sentence_ids decoder_vocab V (oov_words ++ [w]) ws
        ((V + oov_words.length) :: r.1, r.2)

/-- Embedding of the per-story sentence loop of `Data._vectorize_stories`
(src/data.py lines 114-134) restricted to its OOV bookkeeping: each
sentence's OOV ids are padded with `PAD_INDEX` to `sentence_size`
(`oov_sentence_ids + [PAD_INDEX] * ls`), and the `oov_words` accumulator is
threaded through the sentences of the story.  The later memory-size
truncation (lines 137-147) selects among these padded rows but never
renumbers. -/
def story_oov_ids (decoder_vocab : Nat → Option Nat) (V sentence_size : Nat) :
    List Nat → List (List Nat) → List (List Nat) × List Nat
  | oov_words, [] => ([], oov_words)
  | oov_words, sent :: rest =>
    let r1 := oov_sentence_ids decoder_vocab V oov_words sent
    let padded := r1.1 ++ List.replicate (sentence_size - sent.length) PAD_INDEX
    let r2 := story_oov_ids decoder_vocab V sentence_size r1.2 rest
    (padded :: r2.1, r2.2)

/-- Embedding of the story loop of `Data._vectorize_stories` restricted to
OOV ids: `oov_words = []` is re-initialized for every story (src/data.py
line 111), so each story's ids are computed independently. -/
def vectorize_stories_oov (decoder_vocab : Nat → Option Nat)
    (V sentence_size : Nat) (stories : List (List (List Nat))) :
    List (List (List Nat) × List Nat) :=
  stories.map (fun st => story_oov_ids decoder_vocab V sentence_size [] st)

/-- Modelled from the spec: the list of distinct out-of-vocabulary words of a
story in order of first appearance, written directly from the spec's phrase
"numbered per-example in order of first appearance within that example's
memory"; used to compare the code's `oov_words` accumulator against the
spec's description. -/
def spec_oov_first_appearance (decoder_vocab : Nat → Option Nat)
    (story : List (List Nat)) : List Nat :=
  story.flatten.foldl
    (fun acc w => if decoder_vocab w = none ∧ w ∉ acc then acc ++ [w] else acc)
    []

/-- Embedding of one iteration of the answer loop of
`Data._vectorize_answers` (src/data.py lines 181-200): the main answer maps
in-vocabulary words to their ids, story-OOV words to
`decode_vocab_size + OOV_words[i].index(w)` and unknown words to
`UNK_INDEX`; the embedding-lookup variant maps both OOV cases to
`UNK_INDEX`; both are closed with one `EOS_INDEX` and padded with
`PAD_INDEX` to `candidate_sentence_size`, and the recorded size is
`len(answer) + 1`. -/
def vectorize_answer (decoder_vocab : Nat → Option Nat)
    (V candidate_sentence_size : Nat) (oov_words : List Nat)
    (answer : List Nat) : List Nat × List Nat × Nat :=
  let aq := candidate_sentence_size - answer.length - 1
  let a := answer.map (fun w =>
    match decoder_vocab w with
    | some idw => idw
    | none => if w ∈ oov_words then V + oov_words.indexOf w else UNK_INDEX)
  let a_emb := answer.map (fun w =>
    match decoder_vocab w with
    | some idw => idw
    | none => UNK_INDEX)
  (a ++ [EOS_INDEX] ++ List.replicate aq PAD_INDEX,
   a_emb ++ [EOS_INDEX] ++ List.replicate aq PAD_INDEX,
   answer.length + 1)

/-! ### Concrete instances used by the witnesses -/

/-- Toy closed decoder vocabulary of size 4 (the four special tokens). -/
def demoVocab : Nat → Option Nat := fun w => if w < 4 then some w else none

/-- Step function of a decoder over a batch of one element that never
reports itself finished. -/
def demoStepNever : Nat → Int → List (StateField Int) →
    StepResult Int (List Int) Int Int Int :=
  fun _ inp st => ⟨[5], [1, 2], 1, st, inp, [false]⟩

/-- Decode parameters driving `demoStepNever` with `maximum_iterations = 2`. -/
def demoParamsNever : DecodeParams Int (List Int) Int Int Int where
  step := demoStepNever
  initFinished := [false]
  initInputs := 0
  initState := [.batchedF [0]]
  zeroOutputs := [0]
  imputeFinished := false
  maxIter := some 2
  outputTimeMajor := false
  finalize? := none

/-- Step function of a batch-one decoder that reports finished at once. -/
def demoStepFinish : Nat → Int → List (StateField Int) →
    StepResult Int (List Int) Int Int Int :=
  fun _ inp st => ⟨[7], [3], 1, st, inp, [true]⟩

/-- Decode parameters driving `demoStepFinish` without an iteration bound. -/
def demoParamsFinish : DecodeParams Int (List Int) Int Int Int where
  step := demoStepFinish
  initFinished := [false]
  initInputs := 0
  initState := [.batchedF [0]]
  zeroOutputs := [0]
  imputeFinished := false
  maxIter := none
  outputTimeMajor := false
  finalize? := none

/-- Step function of a batch-two decoder that emits a distinguishable
attention row per step and finishes every element from time 1 on. -/
def demoStepTwo : Nat → Int → List (StateField Int) →
    StepResult Int (List Int) Int Int Int :=
  fun t inp st =>
    ⟨[Int.ofNat (10 + t), Int.ofNat (20 + t)],
     [Int.ofNat (1 + 2 * t), Int.ofNat (2 + 2 * t)], Int.ofNat t, st, inp,
     [decide (1 ≤ t), decide (1 ≤ t)]⟩

/-- Decode parameters driving `demoStepTwo` in batch-major output mode. -/
def demoParamsTwo : DecodeParams Int (List Int) Int Int Int where
  step := demoStepTwo
  initFinished := [false, false]
  initInputs := 0
  initState := [.batchedF [0, 0]]
  zeroOutputs := [0, 0]
  imputeFinished := false
  maxIter := none
  outputTimeMajor := false
  finalize? := none

/-- Step function of a batch-two decoder with a three-field state
(batched, scalar, history buffer), used to exercise impute-finished mode. -/
def demoStepState : Nat → Int → List (StateField Int) →
    StepResult Int (List Int) Int Int Int :=
  fun _ inp _ =>
    ⟨[11, 12], [5, 6], 2, [.batchedF [9, 8], .scalarF 7, .taF [1, 2]], inp,
     [false, true]⟩

/-- Decode parameters driving `demoStepState` with impute-finished mode on. -/
def demoParamsImpute : DecodeParams Int (List Int) Int Int Int where
  step := demoStepState
  initFinished := [true, false]
  initInputs := 0
  initState := [.batchedF [4, 3], .scalarF 0, .taF []]
  zeroOutputs := [0, 0]
  imputeFinished := true
  maxIter := none
  outputTimeMajor := false
  finalize? := none

/-! ### Helper lemmas -/

theorem zipWith3_getElem? (f : α → β → γ → δ) {as : List α} {bs : List β}
    {cs : List γ} {i : Nat} {a : α} {b : β} {c : γ}
    (ha : as[i]? = some a) (hb : bs[i]? = some b) (hc : cs[i]? = some c) :
    (zipWith3 f as bs cs)[i]? = some (f a b c) := by
  induction as generalizing bs cs i with
  | nil => simp at ha
  | cons x xs ih =>
    cases bs with
    | nil => simp at hb
    | cons y ys =>
      cases cs with
      | nil => simp at hc
      | cons z zs =>
        cases i with
        | zero =>
          simp only [List.getElem?_cons_zero, Option.some.injEq] at ha hb hc
          simp [zipWith3, ha, hb, hc]
        | succ n =>
          simp only [List.getElem?_cons_succ] at ha hb hc
          simpa [zipWith3] using ih ha hb hc

theorem zipWith3_mem {f : α → β → γ → δ} {as : List α} {bs : List β}
    {cs : List γ} {x : δ} (hx : x ∈ zipWith3 f as bs cs) :
    ∃ a ∈ as, ∃ b ∈ bs, ∃ c ∈ cs, x = f a b c := by
  induction as generalizing bs cs with
  | nil => simp [zipWith3] at hx
  | cons a as ih =>
    cases bs with
    | nil => simp [zipWith3] at hx
    | cons b bs =>
      cases cs with
      | nil => simp [zipWith3] at hx
      | cons c cs =>
        simp only [zipWith3, List.mem_cons] at hx
        rcases hx with h | h
        · exact ⟨a, by simp, b, by simp, c, by simp, h⟩
        · obtain ⟨a', ha, b', hb, c', hc, he⟩ := ih h
          exact ⟨a', by simp [ha], b', by simp [hb], c', by simp [hc], he⟩

theorem sum_pos_of_mem_pos {l : List ℚ} (h0 : ∀ x ∈ l, 0 ≤ x) {x : ℚ}
    (hx : x ∈ l) (hpos : 0 < x) : 0 < l.sum := by
  induction l with
  | nil => simp at hx
  | cons a as ih =>
    rcases List.mem_cons.mp hx with rfl | hmem
    · have : 0 ≤ as.sum := by
        have h : ∀ y ∈ as, 0 ≤ y := fun y hy => h0 y (List.mem_cons_of_mem _ hy)
        exact List.sum_nonneg h
      simp only [List.sum_cons]
      linarith
    · have ha : 0 ≤ a := h0 a (List.mem_cons_self _ _)
      have := ih (fun y hy => h0 y (List.mem_cons_of_mem _ hy)) hmem
      simp only [List.sum_cons]
      linarith

/-! ### C8 — degenerate inputs are rejected -/

/-- C8: degenerate inputs are rejected with a fatal error before any alignment
or projection computation proceeds — `_maybe_mask_score`'s `assert_positive`
(and hence the whole scorer call) fails when any supplied valid length is
non-positive, and `linear` fails on a `None` or empty args list. -/
theorem claim8_degenerate_inputs :
    (∀ (score : List (List ℚ)) (Ls : List Int) (mv : Option ℚ),
        (∃ L ∈ Ls, L ≤ 0) → maybe_mask_score score (some Ls) mv = none)
    ∧ (∀ (e : ℚ → ℚ) (scale : Bool) (g : ℚ) (mv : Option ℚ)
        (query : List (List ℚ)) (keys : List (List (List ℚ)))
        (word_values : List (List (List (List ℚ)))) (Ls : List Int),
        (∃ L ∈ Ls, L ≤ 0) →
        CustomAttention_call e scale g mv query keys word_values (some Ls)
          = none)
    ∧ (∀ (matrix : List (List ℚ)) (bias : Bool) (bias_term : List ℚ),
        linear none matrix bias bias_term = none)
    ∧ (∀ (matrix : List (List ℚ)) (bias : Bool) (bias_term : List ℚ),
        linear (some []) matrix bias bias_term = none) := by
  have hmask : ∀ (score : List (List ℚ)) (Ls : List Int) (mv : Option ℚ),
      (∃ L ∈ Ls, L ≤ 0) → maybe_mask_score score (some Ls) mv = none := by
    intro score Ls mv ⟨L, hLmem, hL⟩
    have hall : Ls.all (fun L => decide (0 < L)) = false := by
      rcases h : Ls.all (fun L => decide (0 < L)) with _ | _
      · rfl
      · have := List.all_eq_true.mp h L hLmem
        simp at this
        omega
    simp [maybe_mask_score, hall]
  refine ⟨hmask, ?_, ?_, ?_⟩
  · intro e scale g mv query keys word_values Ls h
    simp [CustomAttention_call, hmask _ _ _ h]
  · intro matrix bias bias_term; rfl
  · intro matrix bias bias_term; rfl

/-- Witness for C8 at a concrete non-positive length and concrete matrices. -/
theorem claim8_degenerate_inputs_witness :
    (∃ L ∈ [(-1 : Int)], L ≤ 0)
    ∧ maybe_mask_score [[(5 : ℚ)]] (some [-1]) none = none
    ∧ CustomAttention_call (fun _ => 1) false 1 none [[1]] [[[1]]] [[[[1]]]]
        (some [-1]) = none
    ∧ linear none [[1]] true [0] = none
    ∧ linear (some []) [[1]] true [0] = none :=
  ⟨by decide,
   claim8_degenerate_inputs.1 [[5]] [-1] none ⟨-1, by decide, by decide⟩,
   claim8_degenerate_inputs.2.1 (fun _ => 1) false 1 none [[1]] [[[1]]]
     [[[[1]]]] [-1] ⟨-1, by decide, by decide⟩,
   claim8_degenerate_inputs.2.2.1 [[1]] true [0],
   claim8_degenerate_inputs.2.2.2 [[1]] true [0]⟩

/-! ### C9 — construction sorts the caller's data in place -/

/-- C9: extracting the data items sorts the caller's list (returned here as
the first component, modelling the in-place mutation) into non-increasing
story length, a permutation of the input, and the four exposed projections
are co-indexed with that sorted list rather than with the input order. -/
theorem claim9_extract_sorts (data : List DataItem) :
    (extract_data_items data).1.Perm data
    ∧ List.Sorted (fun a b : DataItem => b.story.length ≤ a.story.length)
        (extract_data_items data).1
    ∧ (extract_data_items data).2.1
        = (extract_data_items data).1.map (·.story)
    ∧ (extract_data_items data).2.2.1
        = (extract_data_items data).1.map (·.query)
    ∧ (extract_data_items data).2.2.2.1
        = (extract_data_items data).1.map (·.answer)
    ∧ (extract_data_items data).2.2.2.2
        = (extract_data_items data).1.map (·.dialogId) := by
  refine ⟨?_, ?_, rfl, rfl, rfl, rfl⟩
  · exact List.mergeSort_perm data _
  · have h := @List.sorted_mergeSort DataItem
      (fun a b : DataItem => decide (b.story.length ≤ a.story.length))
      (fun a b c hab hbc => by
        simp only [decide_eq_true_eq] at hab hbc ⊢
        omega)
      (fun a b => by
        simp only [Bool.or_eq_true, decide_eq_true_eq]
        omega)
      data
    exact h.imp (fun hab => by simpa using hab)

/-! ### C10 — answer vectorization layout and the UNK variant -/

/-- C10: for an answer that fits in `candidate_sentence_size`, the vectorized
answer is the per-word ids, one `EOS_INDEX`, then `PAD_INDEX` up to
`candidate_sentence_size`; the recorded size is the word count plus one; and
the embedding-lookup variant agrees with the main answer except that every
position holding a copy id `≥ V` is replaced by `UNK_INDEX` (positions whose
word is unknown already hold `UNK_INDEX` in both). -/
theorem claim10_vectorize_answers (decoder_vocab : Nat → Option Nat)
    (V C : Nat) (oov_words : List Nat) (answer : List Nat)
    (hfit : answer.length + 1 ≤ C)
    (hvocab : ∀ w idw, decoder_vocab w = some idw → idw < V)
    (hV : 3 < V) :
    (vectorize_answer decoder_vocab V C oov_words answer).1.length = C
    ∧ (∀ (k w : Nat), answer[k]? = some w →
        (vectorize_answer decoder_vocab V C oov_words answer).1[k]?
          = some (match decoder_vocab w with
            | some idw => idw
            | none =>
              if w ∈ oov_words then V + oov_words.indexOf w else UNK_INDEX))
    ∧ (vectorize_answer decoder_vocab V C oov_words answer).1[answer.length]?
        = some EOS_INDEX
    ∧ (∀ (k : Nat), answer.length < k → k < C →
        (vectorize_answer decoder_vocab V C oov_words answer).1[k]?
          = some PAD_INDEX)
    ∧ (vectorize_answer decoder_vocab V C oov_words answer).2.2
        = answer.length + 1
    ∧ (vectorize_answer decoder_vocab V C oov_words answer).2.1.length = C
    ∧ (∀ (k v : Nat),
        (vectorize_answer decoder_vocab V C oov_words answer).1[k]? = some v →
        (vectorize_answer decoder_vocab V C oov_words answer).2.1[k]?
          = some (if V ≤ v then UNK_INDEX else v)) := by
  have hlen : (vectorize_answer decoder_vocab V C oov_words answer).1.length
      = C := by
    simp [vectorize_answer]
    omega
  have hlen2 :
      (vectorize_answer decoder_vocab V C oov_words answer).2.1.length = C := by
    simp [vectorize_answer]
    omega
  refine ⟨hlen, ?_, ?_, ?_, rfl, hlen2, ?_⟩
  · intro k w hk
    have hklt : k < answer.length := (List.getElem?_eq_some.mp hk).1
    simp only [vectorize_answer, List.append_assoc]
    rw [List.getElem?_append_left (by simpa using hklt)]
    simp [List.getElem?_map, hk]
  · simp only [vectorize_answer, List.append_assoc]
    rw [List.getElem?_append_right (by simp)]
    simp
  · intro k h1 h2
    simp only [vectorize_answer, List.append_assoc]
    rw [List.getElem?_append_right (by simp; omega)]
    simp only [List.length_map]
    rw [List.getElem?_append_right (by simp; omega)]
    rw [List.getElem?_replicate]
    rw [if_pos (by simp; omega)]
  · intro k v hv
    have hklt : k < C := by
      have := (List.getElem?_eq_some.mp hv).1
      omega
    have hembAt : ∀ u : Nat,
        (vectorize_answer decoder_vocab V C oov_words answer).1[k]? = some u →
        (vectorize_answer decoder_vocab V C oov_words answer).2.1[k]?
          = some (if V ≤ u then UNK_INDEX else u) := by
      clear hv
      rcases Nat.lt_trichotomy k answer.length with hk | hk | hk
      · obtain ⟨w, hw⟩ : ∃ w, answer[k]? = some w :=
          ⟨answer[k], by simp [List.getElem?_eq_some, hk]⟩
        rcases hdvw : decoder_vocab w with _ | idw
        · by_cases hmem : w ∈ oov_words
          · have hmain :
                (vectorize_answer decoder_vocab V C oov_words answer).1[k]?
                  = some (V + oov_words.indexOf w) := by
              simp only [vectorize_answer, List.append_assoc]
              rw [List.getElem?_append_left (by simpa using hk)]
              simp [List.getElem?_map, hw, hdvw, hmem]
            have hemb :
                (vectorize_answer decoder_vocab V C oov_words answer).2.1[k]?
                  = some UNK_INDEX := by
              simp only [vectorize_answer, List.append_assoc]
              rw [List.getElem?_append_left (by simpa using hk)]
              simp [List.getElem?_map, hw, hdvw]
            intro u hu
            rw [hmain] at hu
            have hueq : u = V + oov_words.indexOf w := by simpa using hu.symm
            rw [hemb, if_pos (by omega)]
          · have hmain :
                (vectorize_answer decoder_vocab V C oov_words answer).1[k]?
                  = some UNK_INDEX := by
              simp only [vectorize_answer, List.append_assoc]
              rw [List.getElem?_append_left (by simpa using hk)]
              simp [List.getElem?_map, hw, hdvw, hmem]
            have hemb :
                (vectorize_answer decoder_vocab V C oov_words answer).2.1[k]?
                  = some UNK_INDEX := by
              simp only [vectorize_answer, List.append_assoc]
              rw [List.getElem?_append_left (by simpa using hk)]
              simp [List.getElem?_map, hw, hdvw]
            intro u hu
            rw [hmain] at hu
            have hueq : u = UNK_INDEX := by simpa using hu.symm
            subst hueq
            rw [hemb, ite_self]
        · have hmain :
              (vectorize_answer decoder_vocab V C oov_words answer).1[k]?
                = some idw := by
            simp only [vectorize_answer, List.append_assoc]
            rw [List.getElem?_append_left (by simpa using hk)]
            simp [List.getElem?_map, hw, hdvw]
          have hemb :
              (vectorize_answer decoder_vocab V C oov_words answer).2.1[k]?
                = some idw := by
            simp only [vectorize_answer, List.append_assoc]
            rw [List.getElem?_append_left (by simpa using hk)]
            simp [List.getElem?_map, hw, hdvw]
          intro u hu
          rw [hmain] at hu
          have hueq : u = idw := by simpa using hu.symm
          rw [hueq, hemb, if_neg (Nat.not_le.mpr (hvocab w idw hdvw))]
      · subst hk
        have hmain :
            (vectorize_answer decoder_vocab V C oov_words answer).1[answer.length]?
              = some EOS_INDEX := by
          simp only [vectorize_answer, List.append_assoc]
          rw [List.getElem?_append_right (by simp)]
          simp
        have hemb :
            (vectorize_answer decoder_vocab V C oov_words answer).2.1[answer.length]?
              = some EOS_INDEX := by
          simp only [vectorize_answer, List.append_assoc]
          rw [List.getElem?_append_right (by simp)]
          simp
        intro u hu
        rw [hmain] at hu
        have hueq : u = EOS_INDEX := by simpa using hu.symm
        subst hueq
        have hnle : ¬ V ≤ EOS_INDEX := by
          simp only [EOS_INDEX]
          omega
        rw [hemb, if_neg hnle]
      · have hmain :
            (vectorize_answer decoder_vocab V C oov_words answer).1[k]?
              = some PAD_INDEX := by
          simp only [vectorize_answer, List.append_assoc]
          rw [List.getElem?_append_right (by simp; omega)]
          simp only [List.length_map]
          rw [List.getElem?_append_right (by simp; omega)]
          rw [List.getElem?_replicate, if_pos (by simp; omega)]
        have hemb :
            (vectorize_answer decoder_vocab V C oov_words answer).2.1[k]?
              = some PAD_INDEX := by
          simp only [vectorize_answer, List.append_assoc]
          rw [List.getElem?_append_right (by simp; omega)]
          simp only [List.length_map]
          rw [List.getElem?_append_right (by simp; omega)]
          rw [List.getElem?_replicate, if_pos (by simp; omega)]
        intro u hu
        rw [hmain] at hu
        have hueq : u = PAD_INDEX := by simpa using hu.symm
        subst hueq
        have hnle : ¬ V ≤ PAD_INDEX := by
          simp only [PAD_INDEX]
          omega
        rw [hemb, if_neg hnle]
    exact hembAt v hv

/-- Witness for C10: vocabulary of the four special tokens, `V = 4`, story
OOV list `[9]`, answer `[2, 9, 15]` inside `candidate_sentence_size = 6`. -/
theorem claim10_vectorize_answers_witness :
    ([2, 9, 15] : List Nat).length + 1 ≤ 6
    ∧ (vectorize_answer demoVocab 4 6 [9] [2, 9, 15]).1 = [2, 4, 1, 3, 0, 0]
    ∧ (vectorize_answer demoVocab 4 6 [9] [2, 9, 15]).2.1
        = [2, 1, 1, 3, 0, 0]
    ∧ (vectorize_answer demoVocab 4 6 [9] [2, 9, 15]).1[3]? = some EOS_INDEX
    ∧ (vectorize_answer demoVocab 4 6 [9] [2, 9, 15]).2.2 = 4 := by
  have h := claim10_vectorize_answers demoVocab 4 6 [9] [2, 9, 15]
    (by decide)
    (fun w idw hw => by
      by_cases hwlt : w < 4
      · simp [demoVocab, hwlt] at hw
        omega
      · simp [demoVocab, hwlt] at hw)
    (by decide)
  exact ⟨by decide, by decide, by decide, h.2.2.1, h.2.2.2.2.1⟩

/-! ### C7 — per-example OOV id assignment -/

theorem oov_sentence_ids_length (dv : Nat → Option Nat) (V : Nat) :
    ∀ (ws acc : List Nat),
      (oov_sentence_ids dv V acc ws).1.length = ws.length := by
  intro ws
  induction ws with
  | nil => intro acc; simp [oov_sentence_ids]
  | cons w ws ih =>
    intro acc
    rcases hdv : dv w with _ | idw
    · by_cases hmem : w ∈ acc
      · simp [oov_sentence_ids, hdv, hmem, ih]
      · simp [oov_sentence_ids, hdv, hmem, ih]
    · simp [oov_sentence_ids, hdv, ih]

theorem oov_sentence_ids_snd_append (dv : Nat → Option Nat) (V : Nat) :
    ∀ (ws acc : List Nat),
      ∃ t, (oov_sentence_ids dv V acc ws).2 = acc ++ t := by
  intro ws
  induction ws with
  | nil => intro acc; exact ⟨[], by simp [oov_sentence_ids]⟩
  | cons w ws ih =>
    intro acc
    rcases hdv : dv w with _ | idw
    · by_cases hmem : w ∈ acc
      · obtain ⟨t, ht⟩ := ih acc
        exact ⟨t, by simp [oov_sentence_ids, hdv, hmem, ht]⟩
      · obtain ⟨t, ht⟩ := ih (acc ++ [w])
        exact ⟨w :: t, by simp [oov_sentence_ids, hdv, hmem, ht]⟩
    · obtain ⟨t, ht⟩ := ih acc
      exact ⟨t, by simp [oov_sentence_ids, hdv, ht]⟩

theorem oov_sentence_ids_mem_snd (dv : Nat → Option Nat) (V : Nat) :
    ∀ (ws acc : List Nat) (w : Nat),
      (w ∈ acc ∨ (dv w = none ∧ w ∈ ws)) →
      w ∈ (oov_sentence_ids dv V acc ws).2 := by
  intro ws
  induction ws with
  | nil =>
    intro acc w h
    rcases h with h | ⟨_, h⟩
    · simpa [oov_sentence_ids] using h
    · simp at h
  | cons x xs ih =>
    intro acc w h
    rcases hdv : dv x with _ | idw
    · by_cases hmem : x ∈ acc
      · simp only [oov_sentence_ids, hdv, hmem, if_true]
        refine ih acc w ?_
        rcases h with h | ⟨hw, hmem2⟩
        · exact Or.inl h
        · rcases List.mem_cons.mp hmem2 with rfl | h2
          · exact Or.inl hmem
          · exact Or.inr ⟨hw, h2⟩
      · simp only [oov_sentence_ids, hdv, hmem, if_false]
        refine ih (acc ++ [x]) w ?_
        rcases h with h | ⟨hw, hmem2⟩
        · exact Or.inl (by simp [h])
        · rcases List.mem_cons.mp hmem2 with rfl | h2
          · exact Or.inl (by simp)
          · exact Or.inr ⟨hw, h2⟩
    · simp only [oov_sentence_ids, hdv]
      refine ih acc w ?_
      rcases h with h | ⟨hw, hmem2⟩
      · exact Or.inl h
      · rcases List.mem_cons.mp hmem2 with rfl | h2
        · rw [hdv] at hw; cases hw
        · exact Or.inr ⟨hw, h2⟩

theorem oov_sentence_ids_snd_foldl (dv : Nat → Option Nat) (V : Nat) :
    ∀ (ws acc : List Nat),
      (oov_sentence_ids dv V acc ws).2
        = ws.foldl
            (fun a w => if dv w = none ∧ w ∉ a then a ++ [w] else a) acc := by
  intro ws
  induction ws with
  | nil => intro acc; simp [oov_sentence_ids]
  | cons w ws ih =>
    intro acc
    rcases hdv : dv w with _ | idw
    · by_cases hmem : w ∈ acc
      · simp [oov_sentence_ids, hdv, hmem, ih]
      · simp [oov_sentence_ids, hdv, hmem, ih]
    · simp [oov_sentence_ids, hdv, ih]

theorem oov_sentence_ids_spec (dv : Nat → Option Nat) (V : Nat) :
    ∀ (ws acc : List Nat) (k w : Nat), ws[k]? = some w →
      (oov_sentence_ids dv V acc ws).1[k]?
        = some (match dv w with
          | some idw => idw
          | none => V + ((oov_sentence_ids dv V acc ws).2.indexOf w)) := by
  intro ws
  induction ws with
  | nil => intro acc k w hk; simp at hk
  | cons x xs ih =>
    intro acc k w hk
    cases k with
    | zero =>
      have hw : w = x := by simpa using hk.symm
      subst hw
      rcases hdv : dv w with _ | idw
      · by_cases hmem : w ∈ acc
        · obtain ⟨t, ht⟩ := oov_sentence_ids_snd_append dv V xs acc
          simp only [oov_sentence_ids, hdv, hmem, if_true, List.getElem?_cons_zero,
            ht]
          rw [List.indexOf_append_of_mem hmem]
        · obtain ⟨t, ht⟩ := oov_sentence_ids_snd_append dv V xs (acc ++ [w])
          simp only [oov_sentence_ids, hdv, hmem, if_false, List.getElem?_cons_zero,
            ht]
          rw [List.append_assoc,
            List.indexOf_append_of_not_mem hmem]
          simp
      · simp [oov_sentence_ids, hdv]
    | succ n =>
      have hk' : xs[n]? = some w := by simpa using hk
      rcases hdv : dv x with _ | idw
      · by_cases hmem : x ∈ acc
        · simpa [oov_sentence_ids, hdv, hmem] using ih acc n w hk'
        · simpa [oov_sentence_ids, hdv, hmem] using ih (acc ++ [x]) n w hk'
      · simpa [oov_sentence_ids, hdv] using ih acc n w hk'

theorem story_oov_ids_snd_append (dv : Nat → Option Nat) (V S : Nat) :
    ∀ (sents : List (List Nat)) (acc : List Nat),
      ∃ t, (story_oov_ids dv V S acc sents).2 = acc ++ t := by
  intro sents
  induction sents with
  | nil => intro acc; exact ⟨[], by simp [story_oov_ids]⟩
  | cons sent rest ih =>
    intro acc
    obtain ⟨t1, ht1⟩ := oov_sentence_ids_snd_append dv V sent acc
    obtain ⟨t2, ht2⟩ := ih (oov_sentence_ids dv V acc sent).2
    refine ⟨t1 ++ t2, ?_⟩
    simp only [story_oov_ids]
    rw [ht2, ht1, List.append_assoc]

theorem story_oov_ids_snd_foldl (dv : Nat → Option Nat) (V S : Nat) :
    ∀ (sents : List (List Nat)) (acc : List Nat),
      (story_oov_ids dv V S acc sents).2
        = sents.foldl
            (fun a sent => sent.foldl
              (fun a w => if dv w = none ∧ w ∉ a then a ++ [w] else a) a)
            acc := by
  intro sents
  induction sents with
  | nil => intro acc; simp [story_oov_ids]
  | cons sent rest ih =>
    intro acc
    simp only [story_oov_ids, List.foldl_cons]
    rw [ih, oov_sentence_ids_snd_foldl]

theorem story_oov_words_eq_spec (dv : Nat → Option Nat) (V S : Nat)
    (story : List (List Nat)) :
    (story_oov_ids dv V S [] story).2 = spec_oov_first_appearance dv story := by
  rw [story_oov_ids_snd_foldl, spec_oov_first_appearance, List.foldl_flatten]

theorem story_oov_ids_spec (dv : Nat → Option Nat) (V S : Nat) :
    ∀ (sents : List (List Nat)) (acc : List Nat) (s k : Nat)
      (sent : List Nat) (w : Nat) (row : List Nat),
      sents[s]? = some sent → sent[k]? = some w →
      (story_oov_ids dv V S acc sents).1[s]? = some row →
      row[k]? = some (match dv w with
        | some idw => idw
        | none => V + ((story_oov_ids dv V S acc sents).2.indexOf w)) := by
  intro sents
  induction sents with
  | nil => intro acc s k sent w row hs; simp at hs
  | cons sent0 rest ih =>
    intro acc s k sent w row hs hk hrow
    cases s with
    | zero =>
      have hsent : sent = sent0 := by simpa using hs.symm
      subst hsent
      have hklt : k < sent.length := (List.getElem?_eq_some.mp hk).1
      have hrow' : row
          = (oov_sentence_ids dv V acc sent).1
            ++ List.replicate (S - sent.length) PAD_INDEX := by
        simpa [story_oov_ids] using hrow.symm
      subst hrow'
      rw [List.getElem?_append_left
        (by rw [oov_sentence_ids_length]; exact hklt)]
      have hspec := oov_sentence_ids_spec dv V sent acc k w hk
      rw [hspec]
      rcases hdv : dv w with _ | idw
      · obtain ⟨t, ht⟩ :=
          story_oov_ids_snd_append dv V S rest (oov_sentence_ids dv V acc sent).2
        have hwmem : w ∈ sent := by
          obtain ⟨hlt, hget⟩ := List.getElem?_eq_some.mp hk
          exact hget ▸ List.getElem_mem hlt
        have hmem : w ∈ (oov_sentence_ids dv V acc sent).2 :=
          oov_sentence_ids_mem_snd dv V sent acc w (Or.inr ⟨hdv, hwmem⟩)
        simp only [story_oov_ids, ht]
        rw [List.indexOf_append_of_mem hmem]
      · simp
    | succ n =>
      have hs' : rest[n]? = some sent := by simpa using hs
      have hrow' : (story_oov_ids dv V S
          (oov_sentence_ids dv V acc sent0).2 rest).1[n]? = some row := by
        simpa [story_oov_ids] using hrow
      have := ih (oov_sentence_ids dv V acc sent0).2 n k sent w row hs' hk hrow'
      simpa [story_oov_ids] using this

/-- C7: every out-of-vocabulary story word is assigned an id at least the
decoder vocabulary size `V`, equal to `V` plus the word's position in the
per-example list of distinct OOV words in order of first appearance (so
repeated occurrences of a word share one id), and each example's ids are
computed from a fresh empty `oov_words` accumulator. -/
theorem claim7_oov_ids (dv : Nat → Option Nat) (V S : Nat)
    (stories : List (List (List Nat))) (j : Nat) (story : List (List Nat))
    (hj : stories[j]? = some story) :
    (vectorize_stories_oov dv V S stories)[j]?
      = some (story_oov_ids dv V S [] story)
    ∧ (story_oov_ids dv V S [] story).2 = spec_oov_first_appearance dv story
    ∧ (∀ (s k : Nat) (sent : List Nat) (w : Nat) (row : List Nat),
        story[s]? = some sent → sent[k]? = some w →
        (story_oov_ids dv V S [] story).1[s]? = some row →
        row[k]? = some (match dv w with
          | some idw => idw
          | none => V + ((story_oov_ids dv V S [] story).2.indexOf w)))
    ∧ (∀ (s k : Nat) (sent : List Nat) (w : Nat) (row : List Nat) (idw : Nat),
        story[s]? = some sent → sent[k]? = some w → dv w = none →
        (story_oov_ids dv V S [] story).1[s]? = some row →
        row[k]? = some idw → V ≤ idw) := by
  refine ⟨?_, story_oov_words_eq_spec dv V S story, ?_, ?_⟩
  · simp [vectorize_stories_oov, List.getElem?_map, hj]
  · intro s k sent w row hs hk hrow
    exact story_oov_ids_spec dv V S story [] s k sent w row hs hk hrow
  · intro s k sent w row idw hs hk hdv hrow hid
    have := story_oov_ids_spec dv V S story [] s k sent w row hs hk hrow
    rw [hid] at this
    have heq : idw = V + ((story_oov_ids dv V S [] story).2.indexOf w) := by
      rw [hdv] at this
      simpa using this
    omega

/-- Witness for C7 at the story `[[5, 6, 5], [7]]` with a vocabulary of size
4: OOV ids `[[4, 5, 4, 0], [6, 0, 0, 0]]` and `oov_words = [5, 6, 7]`. -/
theorem claim7_oov_ids_witness :
    (vectorize_stories_oov demoVocab 4 4 [[[5, 6, 5], [7]]])[0]?
      = some (story_oov_ids demoVocab 4 4 [] [[5, 6, 5], [7]])
    ∧ (story_oov_ids demoVocab 4 4 [] [[5, 6, 5], [7]]).2
      = spec_oov_first_appearance demoVocab [[5, 6, 5], [7]]
    ∧ ([4, 5, 4, 0] : List Nat)[1]?
      = some (4 + ((story_oov_ids demoVocab 4 4 [] [[5, 6, 5], [7]]).2.indexOf 6))
    ∧ (4 : Nat) ≤ 5 := by
  have h := claim7_oov_ids demoVocab 4 4 [[[5, 6, 5], [7]]] 0 [[5, 6, 5], [7]]
    rfl
  refine ⟨h.1, h.2.1, ?_, ?_⟩
  · have h3 := h.2.2.1 0 1 [5, 6, 5] 6 [4, 5, 4, 0] rfl rfl (by decide)
    simpa using h3
  · exact h.2.2.2 0 1 [5, 6, 5] 6 [4, 5, 4, 0] 5 rfl rfl (by decide)
      (by decide) (by decide)

/-! ### C4 — sentence alignment is a masked simplex -/

theorem softmaxExt_nonneg (e : ℚ → ℚ) (he : ∀ x : ℚ, 0 < e x)
    (row : List (Option ℚ)) : ∀ x ∈ softmaxExt e row, 0 ≤ x := by
  intro x hx
  simp only [softmaxExt] at hx
  obtain ⟨w, hw, rfl⟩ := List.mem_map.mp hx
  obtain ⟨o, _, rfl⟩ := List.mem_map.mp hw
  have hnum : 0 ≤ expExt e o := by
    cases o with
    | none => simp [expExt]
    | some s => exact le_of_lt (he s)
  have hden : 0 ≤ (row.map (expExt e)).sum := by
    refine List.sum_nonneg ?_
    intro y hy
    obtain ⟨o', _, rfl⟩ := List.mem_map.mp hy
    cases o' with
    | none => simp [expExt]
    | some s => exact le_of_lt (he s)
  exact div_nonneg hnum hden

theorem softmaxExt_sum (e : ℚ → ℚ) (he : ∀ x : ℚ, 0 < e x)
    (row : List (Option ℚ)) (s : ℚ) (hmem : some s ∈ row) :
    (softmaxExt e row).sum = 1 := by
  have hZpos : 0 < (row.map (expExt e)).sum := by
    refine sum_pos_of_mem_pos ?_ (List.mem_map_of_mem (expExt e) hmem) ?_
    · intro y hy
      obtain ⟨o', _, rfl⟩ := List.mem_map.mp hy
      cases o' with
      | none => simp [expExt]
      | some s' => exact le_of_lt (he s')
    · exact he s
  simp only [softmaxExt, div_eq_mul_inv]
  have := List.sum_map_mul_right (row.map (expExt e)) id
    ((row.map (expExt e)).sum)⁻¹
  simp only [id] at this
  rw [this, List.map_id]
  exact mul_inv_cancel₀ (ne_of_gt hZpos)

theorem maybe_mask_score_some {score : List (List ℚ)} {Ls : List Int}
    {mv : Option ℚ} {rows : List (List (Option ℚ))}
    (h : maybe_mask_score score (some Ls) mv = some rows) :
    (∀ L ∈ Ls, 0 < L)
    ∧ rows = List.zipWith
        (fun row L => row.enum.map
          (fun p => if (p.1 : Int) < L then some p.2 else mv))
        score Ls := by
  by_cases hall : Ls.all (fun L => decide (0 < L)) = true
  · refine ⟨?_, ?_⟩
    · intro L hL
      have := List.all_eq_true.mp hall L hL
      simpa using this
    · have := h
      simp only [maybe_mask_score, hall, if_true, Option.some.injEq] at this
      exact this.symm
  · exfalso
    simp only [maybe_mask_score, hall] at h
    simp at h

/-- C4: the sentence alignment produced by the scorer is a probability
simplex on every (non-empty) batch row — entries non-negative, summing to 1 —
and every position at or beyond the row's valid length, having been masked to
the default `-inf` score before normalization, receives probability exactly 0,
hence below every positive ε. -/
theorem claim4_sentence_alignment (e : ℚ → ℚ) (he : ∀ x : ℚ, 0 < e x)
    (scale : Bool) (g : ℚ) (query : List (List ℚ))
    (keys : List (List (List ℚ))) (word_values : List (List (List (List ℚ))))
    (Ls : List Int) (res : AttnResult)
    (hcall : CustomAttention_call e scale g none query keys word_values
      (some Ls) = some res) :
    ∀ (i : Nat) (row : List ℚ), res.alignments[i]? = some row →
      (row ≠ [] → (∀ x ∈ row, 0 ≤ x) ∧ row.sum = 1)
      ∧ (∀ (L : Int) (j : Nat), Ls[i]? = some L → L ≤ (j : Int) →
          j < row.length → row[j]? = some 0)
      ∧ (∀ (L : Int) (j : Nat) (v ε : ℚ), Ls[i]? = some L → L ≤ (j : Int) →
          row[j]? = some v → 0 < ε → v < ε) := by
  simp only [CustomAttention_call] at hcall
  obtain ⟨masked, hmask, hres⟩ := Option.map_eq_some'.mp hcall
  obtain ⟨hpos, hrows⟩ := maybe_mask_score_some hmask
  intro i row hrow
  have halign : res.alignments = masked.map (softmaxExt e) := by
    rw [← hres]
  rw [halign, List.getElem?_map] at hrow
  obtain ⟨mrow, hmrow, hrowe⟩ := Option.map_eq_some'.mp hrow
  subst hrows
  rw [List.getElem?_zipWith] at hmrow
  rcases hsi : (List.zipWith (luong_score scale g) query keys)[i]? with _ | srow
  · rw [hsi] at hmrow; cases hmrow
  rcases hLi : Ls[i]? with _ | L
  · rw [hsi, hLi] at hmrow; cases hmrow
  rw [hsi, hLi] at hmrow
  have hmrow' : mrow = srow.enum.map
      (fun p => if (p.1 : Int) < L then some p.2 else none) := by
    simpa using hmrow.symm
  have hLpos : 0 < L := by
    refine hpos L ?_
    obtain ⟨hlt, hget⟩ := List.getElem?_eq_some.mp hLi
    exact hget ▸ List.getElem_mem hlt
  have hrowlen : row.length = srow.length := by
    rw [← hrowe]
    simp [softmaxExt, hmrow', List.enum_length]
  have hmaskedAt : ∀ (j : Nat), j < srow.length → L ≤ (j : Int) →
      row[j]? = some 0 := by
    intro j hj hLj
    have hsrowj : ∃ a, srow[j]? = some a :=
      ⟨srow[j], by simp [List.getElem?_eq_some, hj]⟩
    obtain ⟨a, ha⟩ := hsrowj
    have hmj : mrow[j]? = some none := by
      rw [hmrow', List.getElem?_map, List.getElem?_enum, ha]
      simp only [Option.map_some']
      rw [if_neg (by omega)]
    have : row[j]? = (mrow.map (expExt e))[j]?.map
        (· / (mrow.map (expExt e)).sum) := by
      rw [← hrowe]
      simp [softmaxExt, List.getElem?_map]
    rw [this, List.getElem?_map, hmj]
    simp [expExt, zero_div]
  refine ⟨?_, ?_, ?_⟩
  · intro hne
    have hsrow_ne : srow ≠ [] := by
      intro h0
      rw [← hrowe] at hne
      simp [softmaxExt, hmrow', h0] at hne
    obtain ⟨s0, srest, hs0⟩ : ∃ s0 srest, srow = s0 :: srest := by
      cases srow with
      | nil => exact absurd rfl hsrow_ne
      | cons s0 srest => exact ⟨s0, srest, rfl⟩
    have hmem : some s0 ∈ mrow := by
      rw [hmrow', hs0]
      have : ((0 : Nat), s0) ∈ (s0 :: srest).enum := by
        simp [List.enum_cons]
      refine List.mem_map.mpr ⟨(0, s0), this, ?_⟩
      rw [if_pos (by simpa using hLpos)]
    rw [← hrowe]
    exact ⟨softmaxExt_nonneg e he mrow, softmaxExt_sum e he mrow s0 hmem⟩
  · intro L' j hL' hLj hjlt
    have hL'e : L' = L := by
      simpa using hL'.symm
    subst hL'e
    exact hmaskedAt j (hrowlen ▸ hjlt) hLj
  · intro L' j v ε hL' hLj hv hε
    have hL'e : L' = L := by
      simpa using hL'.symm
    subst hL'e
    have hjlt : j < row.length := (List.getElem?_eq_some.mp hv).1
    have := hmaskedAt j (hrowlen ▸ hjlt) hLj
    rw [hv] at this
    have hv0 : v = 0 := by simpa using this
    rw [hv0]
    exact hε

/-- Witness for C4: batch of one query `[1]` against two unit sentence keys
with valid length 2 and constant positive exponential. -/
theorem claim4_sentence_alignment_witness :
    CustomAttention_call (fun _ => 1) false 1 none [[1]] [[[1], [1], [1]]]
      [[[[1]], [[1]], [[1]]]] (some [2])
      = some { alignments := [[1/2, 1/2, 0]], word_alignments := [[1, 1, 1]] }
    ∧ (([1/2, 1/2, 0] : List ℚ) ≠ []
        → (∀ x ∈ ([1/2, 1/2, 0] : List ℚ), 0 ≤ x)
          ∧ ([1/2, 1/2, 0] : List ℚ).sum = 1)
    ∧ (([1/2, 1/2, 0] : List ℚ))[2]? = some 0 := by
  have hcall : CustomAttention_call (fun _ => (1 : ℚ)) false 1 none [[1]]
      [[[1], [1], [1]]] [[[[1]], [[1]], [[1]]]] (some [2])
      = some { alignments := [[1/2, 1/2, 0]], word_alignments := [[1, 1, 1]] } := by
    simp [CustomAttention_call, maybe_mask_score, luong_score, luong_word_score,
      dot, softmaxExt, expExt, List.enum, List.enumFrom]
    norm_num
  have h := claim4_sentence_alignment (fun _ => 1) (fun _ => one_pos) false 1
    [[1]] [[[1], [1], [1]]] [[[[1]], [[1]], [[1]]]] [2] _ hcall 0
    [1/2, 1/2, 0] rfl
  exact ⟨hcall, h.1, h.2.1 2 2 rfl (by decide) (by decide)⟩

/-! ### C1 — the word-alignment combination multiplies the raw score -/

theorem flatten_scale_sum : ∀ (W : List (List ℚ)) (S : List ℚ),
    ((List.zipWith (fun sws s => sws.map (· * s)) W S).flatten).sum
      = (List.zipWith (fun sws s => sws.sum * s) W S).sum := by
  intro W
  induction W with
  | nil => intro S; simp
  | cons w ws ih =>
    intro S
    cases S with
    | nil => simp
    | cons s ss =>
      simp only [List.zipWith_cons_cons, List.flatten_cons, List.sum_append,
        List.sum_cons]
      rw [ih]
      have := List.sum_map_mul_right w id s
      simp only [id] at this
      rw [this, List.map_id]

/-- Counterexample to C1 as stated: with two unit sentences of one unit word
each and query `[1]`, the sentence alignment row is `[1/2, 1/2]` (its sum 1)
for every choice of exponential, while the flattened word alignment row is
`[1, 1]` with sum 2 — the code multiplies the raw word scores by the raw
(unnormalized) sentence scores, not by the normalized sentence alignment, so
the total probability mass is not preserved. -/
theorem claim1_counterexample :
    CustomAttention_call (fun _ => 1) false 1 none [[1]] [[[1], [1]]]
      [[[[1]], [[1]]]] (some [2])
      = some { alignments := [[1/2, 1/2]], word_alignments := [[1, 1]] }
    ∧ ¬ (([1, 1] : List ℚ).sum = ([1/2, 1/2] : List ℚ).sum) := by
  constructor
  · simp [CustomAttention_call, maybe_mask_score, luong_score, luong_word_score,
      dot, softmaxExt, expExt, List.enum, List.enumFrom]
    norm_num
  · norm_num

/-- C1 (amended): the flattened word alignment row `i` equals the raw word
scores broadcast-multiplied by the raw — unnormalized and unmasked —
sentence scores, flattened over (sentence, word) pairs; its total is
`Σ_s score[i,s] * (Σ_w word_score[i,s,w])`, not the sentence-alignment
total. -/
theorem claim1_word_alignment_amended (e : ℚ → ℚ) (scale : Bool) (g : ℚ)
    (mv : Option ℚ) (query : List (List ℚ)) (keys : List (List (List ℚ)))
    (word_values : List (List (List (List ℚ))))
    (lens : Option (List Int)) (res : AttnResult)
    (hcall : CustomAttention_call e scale g mv query keys word_values lens
      = some res)
    (i : Nat) (q : List ℚ) (k : List (List ℚ)) (wv : List (List (List ℚ)))
    (hq : query[i]? = some q) (hk : keys[i]? = some k)
    (hwv : word_values[i]? = some wv) :
    res.word_alignments[i]?
      = some ((List.zipWith (fun sws s => sws.map (· * s))
          (luong_word_score scale g q wv) (luong_score scale g q k)).flatten)
    ∧ ((List.zipWith (fun sws s => sws.map (· * s))
          (luong_word_score scale g q wv) (luong_score scale g q k)).flatten).sum
      = (List.zipWith (fun sws s => sws.sum * s)
          (luong_word_score scale g q wv) (luong_score scale g q k)).sum := by
  refine ⟨?_, flatten_scale_sum _ _⟩
  simp only [CustomAttention_call] at hcall
  obtain ⟨masked, _, hres⟩ := Option.map_eq_some'.mp hcall
  have hwa : res.word_alignments = List.zipWith
      (fun ws sc => (List.zipWith (fun sent_ws s => sent_ws.map (· * s)) ws sc).flatten)
      (List.zipWith (luong_word_score scale g) query word_values)
      (List.zipWith (luong_score scale g) query keys) := by
    rw [← hres]
  rw [hwa, List.getElem?_zipWith]
  have h1 : (List.zipWith (luong_word_score scale g) query word_values)[i]?
      = some (luong_word_score scale g q wv) := by
    rw [List.getElem?_zipWith, hq, hwv]
  have h2 : (List.zipWith (luong_score scale g) query keys)[i]?
      = some (luong_score scale g q k) := by
    rw [List.getElem?_zipWith, hq, hk]
  rw [h1, h2]

/-- Witness for C1 (amended) at the counterexample's concrete input. -/
theorem claim1_word_alignment_amended_witness :
    CustomAttention_call (fun _ => (1 : ℚ)) false 1 none [[1]] [[[1], [1]]]
      [[[[1]], [[1]]]] (some [2])
      = some { alignments := [[1/2, 1/2]], word_alignments := [[1, 1]] }
    ∧ ({ alignments := [[1/2, 1/2]], word_alignments := [[1, 1]] }
        : AttnResult).word_alignments[0]?
      = some ((List.zipWith (fun sws s => sws.map (· * s))
          (luong_word_score false 1 [1] [[[1]], [[1]]])
          (luong_score false 1 [1] [[1], [1]])).flatten)
    ∧ ((List.zipWith (fun sws s => sws.map (· * s))
          (luong_word_score false 1 [1] [[[1]], [[1]]])
          (luong_score false 1 [1] [[1], [1]])).flatten).sum
      = (List.zipWith (fun sws s => sws.sum * s)
          (luong_word_score false 1 [1] [[[1]], [[1]]])
          (luong_score false 1 [1] [[1], [1]])).sum := by
  have hcall : CustomAttention_call (fun _ => (1 : ℚ)) false 1 none [[1]]
      [[[1], [1]]] [[[[1]], [[1]]]] (some [2])
      = some { alignments := [[1/2, 1/2]], word_alignments := [[1, 1]] } := by
    simp [CustomAttention_call, maybe_mask_score, luong_score, luong_word_score,
      dot, softmaxExt, expExt, List.enum, List.enumFrom]
    norm_num
  have h := claim1_word_alignment_amended (fun _ => 1) false 1 none [[1]]
    [[[1], [1]]] [[[[1]], [[1]]]] (some [2]) _ hcall 0 [1] [[1], [1]]
    [[[1]], [[1]]] rfl rfl rfl
  exact ⟨hcall, h.1, h.2⟩

/-! ### Decode-loop lemmas -/

theorem decodeStepN_frozen (p : DecodeParams α A P β ι) :
    ∀ (n : Nat) (ls : LoopState α A P β ι), decodeCond ls = false →
      decodeStepN p n ls = ls := by
  intro n
  induction n with
  | zero => intro ls _; rfl
  | succ n ih =>
    intro ls h
    simp [decodeStepN, h]

theorem decodeStepN_add (p : DecodeParams α A P β ι) :
    ∀ (n m : Nat) (ls : LoopState α A P β ι),
      decodeStepN p m (decodeStepN p n ls) = decodeStepN p (n + m) ls := by
  intro n
  induction n with
  | zero => intro m ls; simp [decodeStepN]
  | succ n ih =>
    intro m ls
    rcases hc : decodeCond ls with _ | _
    · rw [decodeStepN_frozen p (n+1) ls hc,
        decodeStepN_frozen p (n+1+m) ls hc,
        decodeStepN_frozen p m ls hc]
    · have h1 : decodeStepN p (n+1) ls = decodeStepN p n (decodeBody p ls) := by
        simp [decodeStepN, hc]
      have h2 : decodeStepN p (n+1+m) ls
          = decodeStepN p (n+m) (decodeBody p ls) := by
        have : n + 1 + m = (n + m) + 1 := by omega
        rw [this]
        simp [decodeStepN, hc]
      rw [h1, h2, ih]

theorem decodeStepN_time (p : DecodeParams α A P β ι) :
    ∀ (n : Nat) (ls : LoopState α A P β ι),
      decodeCond (decodeStepN p n ls) = true →
      (decodeStepN p n ls).time = ls.time + n := by
  intro n
  induction n with
  | zero => intro ls _; rfl
  | succ n ih =>
    intro ls h
    rcases hc : decodeCond ls with _ | _
    · rw [decodeStepN_frozen p (n+1) ls hc] at h
      rw [h] at hc
      cases hc
    · have h1 : decodeStepN p (n+1) ls = decodeStepN p n (decodeBody p ls) := by
        simp [decodeStepN, hc]
      rw [h1] at h ⊢
      rw [ih (decodeBody p ls) h]
      simp [decodeBody]
      omega

theorem decodeBody_forced (p : DecodeParams α A P β ι)
    (ls : LoopState α A P β ι) (M : Nat) (hM : p.maxIter = some M)
    (h : M ≤ ls.time + 1) : decodeCond (decodeBody p ls) = false := by
  have hdec : decide (ls.time + 1 ≥ M) = true := by
    simp
    omega
  simp [decodeCond, decodeBody, hM, hdec, List.all_eq_true]

/-! ### C2 — maximum_iterations bounds the loop -/

/-- C2: with `maximum_iterations = M > 0`, the decode loop performs at most
`M` iterations regardless of the step function's finished signals — `time`
never exceeds `M` and the loop state is unchanged beyond `M` guarded steps —
and every entry of `sequence_lengths` stays at most `M`. -/
theorem claim2_max_iterations (p : DecodeParams α A P β ι) (M : Nat)
    (hM : p.maxIter = some M) (hpos : 0 < M) (n : Nat) :
    (decodeStepN p n (initialLoopState p)).time ≤ M
    ∧ (∀ x ∈ (decodeStepN p n (initialLoopState p)).seqLens, x ≤ M)
    ∧ (M ≤ n → decodeStepN p n (initialLoopState p)
        = decodeStepN p M (initialLoopState p)) := by
  have hbody : ∀ ls : LoopState α A P β ι,
      (ls.time ≤ M ∧ (decodeCond ls = true → ls.time < M)
        ∧ ∀ x ∈ ls.seqLens, x ≤ M) →
      decodeCond ls = true →
      ((decodeBody p ls).time ≤ M
        ∧ (decodeCond (decodeBody p ls) = true → (decodeBody p ls).time < M)
        ∧ ∀ x ∈ (decodeBody p ls).seqLens, x ≤ M) := by
    intro ls ⟨htime, hcnd, hsl⟩ hc
    have htlt : ls.time < M := hcnd hc
    refine ⟨by simp [decodeBody]; omega, ?_, ?_⟩
    · intro hc2
      by_contra hge
      have : M ≤ (decodeBody p ls).time := by omega
      have hforce : decodeCond (decodeBody p ls) = false :=
        decodeBody_forced p ls M hM (by simp [decodeBody] at this ⊢; omega)
      rw [hc2] at hforce
      cases hforce
    · intro x hx
      have hx' : x ∈ whereList
          (List.zipWith (fun f n => !f && n) ls.finished
            (match p.maxIter with
              | none => List.zipWith (· || ·)
                  (p.step ls.time ls.inputs ls.state).finished ls.finished
              | some M => (List.zipWith (· || ·)
                  (p.step ls.time ls.inputs ls.state).finished
                  ls.finished).map (fun b => b || decide (ls.time + 1 ≥ M))))
          (List.replicate ls.seqLens.length (ls.time + 1)) ls.seqLens := hx
      obtain ⟨c, _, a, ha, b, hb, hxe⟩ := zipWith3_mem hx'
      subst hxe
      by_cases hcb : c = true
      · subst hcb
        simp only [if_true]
        have := List.eq_of_mem_replicate ha
        omega
      · have : c = false := by
          cases c
          · rfl
          · exact absurd rfl hcb
        subst this
        simpa using hsl b hb
  have hinv : ∀ (k : Nat) (ls : LoopState α A P β ι),
      (ls.time ≤ M ∧ (decodeCond ls = true → ls.time < M)
        ∧ ∀ x ∈ ls.seqLens, x ≤ M) →
      ((decodeStepN p k ls).time ≤ M
        ∧ (decodeCond (decodeStepN p k ls) = true
            → (decodeStepN p k ls).time < M)
        ∧ ∀ x ∈ (decodeStepN p k ls).seqLens, x ≤ M) := by
    intro k
    induction k with
    | zero => intro ls h; exact h
    | succ k ih =>
      intro ls h
      rcases hc : decodeCond ls with _ | _
      · rw [decodeStepN_frozen p (k+1) ls hc]
        exact h
      · have h1 : decodeStepN p (k+1) ls
            = decodeStepN p k (decodeBody p ls) := by
          simp [decodeStepN, hc]
        rw [h1]
        exact ih (decodeBody p ls) (hbody ls h hc)
  have hinit : (initialLoopState p).time ≤ M
      ∧ (decodeCond (initialLoopState p) = true
          → (initialLoopState p).time < M)
      ∧ ∀ x ∈ (initialLoopState p).seqLens, x ≤ M := by
    refine ⟨by simp [initialLoopState], fun _ => by
      simp [initialLoopState]; omega, ?_⟩
    intro x hx
    simp only [initialLoopState] at hx
    obtain ⟨_, _, rfl⟩ := List.mem_map.mp hx
    omega
  have hΦ := hinv n (initialLoopState p) hinit
  refine ⟨hΦ.1, hΦ.2.2, ?_⟩
  intro hMn
  have hcondM : decodeCond (decodeStepN p M (initialLoopState p)) = false := by
    by_contra hcm
    have hcm' : decodeCond (decodeStepN p M (initialLoopState p)) = true := by
      cases hcond : decodeCond (decodeStepN p M (initialLoopState p))
      · exact absurd hcond hcm
      · rfl
    have ht := decodeStepN_time p M (initialLoopState p) hcm'
    have hlt := (hinv M (initialLoopState p) hinit).2.1 hcm'
    rw [ht] at hlt
    simp [initialLoopState] at hlt
  have hsplit : n = M + (n - M) := by omega
  rw [hsplit, ← decodeStepN_add p M (n - M) (initialLoopState p),
    decodeStepN_frozen p (n - M) _ hcondM]

/-- Witness for C2: a decoder that never reports finished, `M = 2`,
observed after 5 guarded steps. -/
theorem claim2_max_iterations_witness :
    demoParamsNever.maxIter = some 2
    ∧ (decodeStepN demoParamsNever 5 (initialLoopState demoParamsNever)).time
        ≤ 2
    ∧ (∀ x ∈ (decodeStepN demoParamsNever 5
        (initialLoopState demoParamsNever)).seqLens, x ≤ 2)
    ∧ decodeStepN demoParamsNever 5 (initialLoopState demoParamsNever)
        = decodeStepN demoParamsNever 2 (initialLoopState demoParamsNever) := by
  have h := claim2_max_iterations demoParamsNever 2 rfl (by decide) 5
  exact ⟨rfl, h.1, h.2.1, h.2.2 (by decide)⟩

/-! ### C3 — sequence_lengths bookkeeping -/

theorem zipWith3_length (f : α → β → γ → δ) :
    ∀ (as : List α) (bs : List β) (cs : List γ),
      (zipWith3 f as bs cs).length = min as.length (min bs.length cs.length) := by
  intro as
  induction as with
  | nil => intro bs cs; simp [zipWith3]
  | cons a as ih =>
    intro bs cs
    cases bs with
    | nil => simp [zipWith3]
    | cons b bs =>
      cases cs with
      | nil => simp [zipWith3]
      | cons c cs =>
        simp [zipWith3, ih]
        omega

theorem decodeBody_finished_true (p : DecodeParams α A P β ι)
    (ls : LoopState α A P β ι) (i : Nat)
    (hstep : i < (p.step ls.time ls.inputs ls.state).finished.length)
    (hf : ls.finished[i]? = some true) :
    (decodeBody p ls).finished[i]? = some true := by
  obtain ⟨b, hb⟩ : ∃ b, (p.step ls.time ls.inputs ls.state).finished[i]?
      = some b :=
    ⟨_, (List.getElem?_eq_some.mpr ⟨hstep, rfl⟩)⟩
  have hnf1 : (List.zipWith (· || ·)
      (p.step ls.time ls.inputs ls.state).finished ls.finished)[i]?
      = some true := by
    rw [List.getElem?_zipWith, hb, hf]
    simp
  rcases hmi : p.maxIter with _ | M
  · simp only [decodeBody, hmi]
    exact hnf1
  · simp only [decodeBody, hmi]
    rw [List.getElem?_map, hnf1]
    simp

theorem decodeBody_finished_false (p : DecodeParams α A P β ι)
    (ls : LoopState α A P β ι) (i : Nat)
    (hnf : (decodeBody p ls).finished[i]? = some false) :
    ls.finished[i]? = some false := by
  have hnf1 : (List.zipWith (· || ·)
      (p.step ls.time ls.inputs ls.state).finished ls.finished)[i]?
      = some false := by
    rcases hmi : p.maxIter with _ | M
    · simpa only [decodeBody, hmi] using hnf
    · simp only [decodeBody, hmi] at hnf
      rw [List.getElem?_map] at hnf
      rcases h1 : (List.zipWith (· || ·)
          (p.step ls.time ls.inputs ls.state).finished ls.finished)[i]? with
        _ | b
      · rw [h1] at hnf; cases hnf
      · rw [h1] at hnf
        simp only [Option.map_some'] at hnf
        have : (b || decide (ls.time + 1 ≥ M)) = false := by
          simpa using hnf
        have hb : b = false := by
          cases b
          · rfl
          · simp at this
        rw [hb]
  rw [List.getElem?_zipWith] at hnf1
  rcases h1 : (p.step ls.time ls.inputs ls.state).finished[i]? with _ | a
  · rw [h1] at hnf1; cases hnf1
  rcases h2 : ls.finished[i]? with _ | b
  · rw [h1, h2] at hnf1; cases hnf1
  rw [h1, h2] at hnf1
  have : (a || b) = false := by simpa using hnf1
  have hb : b = false := by
    cases b
    · rfl
    · simp at this
  rw [hb]

theorem decodeBody_seqLens_getElem (p : DecodeParams α A P β ι)
    (ls : LoopState α A P β ι) (i : Nat) (f n : Bool) (s : Nat)
    (hf : ls.finished[i]? = some f)
    (hnf : (decodeBody p ls).finished[i]? = some n)
    (hs : ls.seqLens[i]? = some s) :
    (decodeBody p ls).seqLens[i]?
      = some (if (!f && n) then ls.time + 1 else s) := by
  have hilt : i < ls.seqLens.length := (List.getElem?_eq_some.mp hs).1
  have hrep : (List.replicate ls.seqLens.length (ls.time + 1))[i]?
      = some (ls.time + 1) := by
    rw [List.getElem?_replicate, if_pos hilt]
  rcases hmi : p.maxIter with _ | M
  · have hnf' : ((List.zipWith (· || ·)
        (p.step ls.time ls.inputs ls.state).finished ls.finished))[i]?
        = some n := by
      simpa only [decodeBody, hmi] using hnf
    have hmask : (List.zipWith (fun f n => !f && n) ls.finished
        (List.zipWith (· || ·)
          (p.step ls.time ls.inputs ls.state).finished ls.finished))[i]?
        = some (!f && n) := by
      rw [List.getElem?_zipWith, hf, hnf']
    simp only [decodeBody, hmi]
    exact zipWith3_getElem? _ hmask hrep hs
  · have hnf' : ((List.zipWith (· || ·)
        (p.step ls.time ls.inputs ls.state).finished ls.finished).map
          (fun b => b || decide (ls.time + 1 ≥ M)))[i]?
        = some n := by
      simpa only [decodeBody, hmi] using hnf
    have hmask : (List.zipWith (fun f n => !f && n) ls.finished
        ((List.zipWith (· || ·)
          (p.step ls.time ls.inputs ls.state).finished ls.finished).map
            (fun b => b || decide (ls.time + 1 ≥ M))))[i]?
        = some (!f && n) := by
      rw [List.getElem?_zipWith, hf, hnf']
    simp only [decodeBody, hmi]
    exact zipWith3_getElem? _ hmask hrep hs

theorem decodeBody_finished_length (p : DecodeParams α A P β ι)
    (ls : LoopState α A P β ι)
    (hstep : (p.step ls.time ls.inputs ls.state).finished.length
      = ls.finished.length) :
    (decodeBody p ls).finished.length = ls.finished.length := by
  rcases hmi : p.maxIter with _ | M
  · simp [decodeBody, hmi, List.length_zipWith, hstep]
  · simp [decodeBody, hmi, List.length_zipWith, hstep]

theorem decodeBody_seqLens_length (p : DecodeParams α A P β ι)
    (ls : LoopState α A P β ι)
    (hstep : (p.step ls.time ls.inputs ls.state).finished.length
      = ls.finished.length)
    (hsl : ls.seqLens.length = ls.finished.length) :
    (decodeBody p ls).seqLens.length = ls.finished.length := by
  have hnf : (decodeBody p ls).finished.length = ls.finished.length :=
    decodeBody_finished_length p ls hstep
  rcases hmi : p.maxIter with _ | M
  · simp only [decodeBody, hmi] at hnf ⊢
    rw [whereList, zipWith3_length, List.length_zipWith, List.length_replicate,
      List.length_zipWith, hstep, hsl]
    omega
  · simp only [decodeBody, hmi] at hnf ⊢
    rw [whereList, zipWith3_length, List.length_zipWith, List.length_replicate,
      List.length_map, List.length_zipWith, hstep, hsl]
    omega

/-- C3: along the decode trace, `sequence_lengths[i]` is 0 while element `i`
is still running; once the finished flag of element `i` is set it stays set
and `sequence_lengths[i]` never changes again; and at the single iteration
where the flag transitions false→true, `sequence_lengths[i]` is written with
that iteration's step index `time + 1`. -/
theorem claim3_sequence_lengths (p : DecodeParams α A P β ι)
    (hB : ∀ (t : Nat) (inp : ι) (st : List (StateField β)),
      ((p.step t inp st).finished).length = p.initFinished.length)
    (n i : Nat) :
    ((decodeStepN p n (initialLoopState p)).finished[i]? = some false →
      (decodeStepN p n (initialLoopState p)).seqLens[i]? = some 0)
    ∧ (∀ m, n ≤ m →
        (decodeStepN p n (initialLoopState p)).finished[i]? = some true →
        (decodeStepN p m (initialLoopState p)).finished[i]? = some true
        ∧ (decodeStepN p m (initialLoopState p)).seqLens[i]?
          = (decodeStepN p n (initialLoopState p)).seqLens[i]?)
    ∧ ((decodeStepN p n (initialLoopState p)).finished[i]? = some false →
        (decodeStepN p (n+1) (initialLoopState p)).finished[i]? = some true →
        (decodeStepN p (n+1) (initialLoopState p)).seqLens[i]?
          = some ((decodeStepN p n (initialLoopState p)).time + 1)) := by
  have hinitlen : (initialLoopState p).finished.length
      = p.initFinished.length := by
    rcases hmi : p.maxIter with _ | M
    · simp [initialLoopState, hmi]
    · simp [initialLoopState, hmi]
  have hinitsl : (initialLoopState p).seqLens.length
      = (initialLoopState p).finished.length := by
    simp [initialLoopState]
  have hLen : ∀ k,
      (decodeStepN p k (initialLoopState p)).finished.length
        = p.initFinished.length
      ∧ (decodeStepN p k (initialLoopState p)).seqLens.length
        = p.initFinished.length := by
    have hgen : ∀ (k : Nat) (ls : LoopState α A P β ι),
        ls.finished.length = p.initFinished.length →
        ls.seqLens.length = ls.finished.length →
        (decodeStepN p k ls).finished.length = p.initFinished.length
        ∧ (decodeStepN p k ls).seqLens.length = p.initFinished.length := by
      intro k
      induction k with
      | zero => intro ls h1 h2; exact ⟨h1, h2.trans h1⟩
      | succ k ih =>
        intro ls h1 h2
        rcases hc : decodeCond ls with _ | _
        · rw [decodeStepN_frozen p (k+1) ls hc]
          exact ⟨h1, h2.trans h1⟩
        · have hstep : (p.step ls.time ls.inputs ls.state).finished.length
              = ls.finished.length := (hB _ _ _).trans h1.symm
          have h1' := (decodeBody_finished_length p ls hstep).trans h1
          have h2' := (decodeBody_seqLens_length p ls hstep h2).trans h1
          have hsucc : decodeStepN p (k+1) ls
              = decodeStepN p k (decodeBody p ls) := by
            simp [decodeStepN, hc]
          rw [hsucc]
          exact ih (decodeBody p ls) h1' (h2'.trans h1'.symm)
    intro k
    exact hgen k (initialLoopState p) hinitlen hinitsl
  have hNZ : ∀ k,
      ∀ j : Nat, (decodeStepN p k (initialLoopState p)).finished[j]? = some false →
        (decodeStepN p k (initialLoopState p)).seqLens[j]? = some 0 := by
    have hgen : ∀ (k : Nat) (ls : LoopState α A P β ι),
        ls.finished.length = p.initFinished.length →
        ls.seqLens.length = ls.finished.length →
        (∀ j : Nat, ls.finished[j]? = some false → ls.seqLens[j]? = some 0) →
        ∀ j : Nat, (decodeStepN p k ls).finished[j]? = some false →
          (decodeStepN p k ls).seqLens[j]? = some 0 := by
      intro k
      induction k with
      | zero => intro ls _ _ h j hj; exact h j hj
      | succ k ih =>
        intro ls h1 h2 h j hj
        rcases hc : decodeCond ls with _ | _
        · rw [decodeStepN_frozen p (k+1) ls hc] at hj ⊢
          exact h j hj
        · have hstep : (p.step ls.time ls.inputs ls.state).finished.length
              = ls.finished.length := (hB _ _ _).trans h1.symm
          have h1' := (decodeBody_finished_length p ls hstep).trans h1
          have h2' := (decodeBody_seqLens_length p ls hstep h2).trans h1
          have hsucc : decodeStepN p (k+1) ls
              = decodeStepN p k (decodeBody p ls) := by
            simp [decodeStepN, hc]
          rw [hsucc] at hj ⊢
          refine ih (decodeBody p ls) h1' (h2'.trans h1'.symm) ?_ j hj
          intro j' hj'
          have hfold : ls.finished[j']? = some false :=
            decodeBody_finished_false p ls j' hj'
          have hs0 : ls.seqLens[j']? = some 0 := h j' hfold
          have := decodeBody_seqLens_getElem p ls j' false false 0 hfold hj' hs0
          simpa using this
    intro k
    refine hgen k (initialLoopState p) hinitlen hinitsl ?_
    intro j hj
    rcases hmi : p.maxIter with _ | M
    · simp only [initialLoopState, hmi] at hj ⊢
      rw [List.getElem?_map]
      rcases h0 : p.initFinished[j]? with _ | b
      · rw [h0] at hj; cases hj
      · rfl
    · simp only [initialLoopState, hmi] at hj ⊢
      rw [List.getElem?_map]
      rcases h0 : (p.initFinished.map (fun b => b || decide (0 ≥ M)))[j]? with
        _ | b
      · rw [h0] at hj; cases hj
      · rfl
  have hKeep : ∀ (k : Nat) (ls : LoopState α A P β ι),
      ls.finished.length = p.initFinished.length →
      ls.seqLens.length = ls.finished.length →
      ls.finished[i]? = some true →
      (decodeStepN p k ls).finished[i]? = some true
      ∧ (decodeStepN p k ls).seqLens[i]? = ls.seqLens[i]? := by
    intro k
    induction k with
    | zero => intro ls _ _ h; exact ⟨h, rfl⟩
    | succ k ih =>
      intro ls h1 h2 h
      rcases hc : decodeCond ls with _ | _
      · rw [decodeStepN_frozen p (k+1) ls hc]
        exact ⟨h, rfl⟩
      · have hstep : (p.step ls.time ls.inputs ls.state).finished.length
            = ls.finished.length := (hB _ _ _).trans h1.symm
        have hilt : i < ls.finished.length :=
          (List.getElem?_eq_some.mp h).1
        have hbt := decodeBody_finished_true p ls i (hstep ▸ hilt) h
        obtain ⟨s, hs⟩ : ∃ s, ls.seqLens[i]? = some s :=
          ⟨_, List.getElem?_eq_some.mpr ⟨by omega, rfl⟩⟩
        have hbs := decodeBody_seqLens_getElem p ls i true true s h hbt hs
        simp at hbs
        have h1' := (decodeBody_finished_length p ls hstep).trans h1
        have h2' := ((decodeBody_seqLens_length p ls hstep h2).trans h1).trans
          h1'.symm
        have hsucc : decodeStepN p (k+1) ls
            = decodeStepN p k (decodeBody p ls) := by
          simp [decodeStepN, hc]
        rw [hsucc]
        obtain ⟨hk1, hk2⟩ := ih (decodeBody p ls) h1' h2' hbt
        exact ⟨hk1, by rw [hk2, hbs, hs]⟩
  refine ⟨hNZ n i, ?_, ?_⟩
  · intro m hnm hf
    obtain ⟨hL1, hL2⟩ := hLen n
    have hsplit : m = n + (m - n) := by omega
    have := hKeep (m - n) (decodeStepN p n (initialLoopState p)) hL1
      (hL2.trans hL1.symm) hf
    rw [decodeStepN_add p n (m - n) (initialLoopState p)] at this
    rw [hsplit]
    exact this
  · intro hf hnf
    obtain ⟨hL1, hL2⟩ := hLen n
    have hstep1 : decodeStepN p (n+1) (initialLoopState p)
        = decodeStepN p 1 (decodeStepN p n (initialLoopState p)) :=
      (decodeStepN_add p n 1 (initialLoopState p)).symm
    set s := decodeStepN p n (initialLoopState p) with hsdef
    rcases hc : decodeCond s with _ | _
    · rw [hstep1, decodeStepN_frozen p 1 s hc] at hnf
      rw [hnf] at hf
      cases hf
    · have h1 : decodeStepN p 1 s = decodeBody p s := by
        simp [decodeStepN, hc]
      rw [hstep1, h1] at hnf ⊢
      have hs0 : s.seqLens[i]? = some 0 := hNZ n i hf
      have := decodeBody_seqLens_getElem p s i false true 0 hf hnf hs0
      simpa using this

/-- Witness for C3: a batch-one decoder that finishes at the first step; at
`n = 0` the element is running with `sequence_lengths = [0]`, from `n = 1` on
it is finished with `sequence_lengths = [1] = [time-at-transition + 1]`. -/
theorem claim3_sequence_lengths_witness :
    (decodeStepN demoParamsFinish 0 (initialLoopState demoParamsFinish)).seqLens[0]?
      = some 0
    ∧ ((decodeStepN demoParamsFinish 3
          (initialLoopState demoParamsFinish)).finished[0]? = some true
        ∧ (decodeStepN demoParamsFinish 3
            (initialLoopState demoParamsFinish)).seqLens[0]?
          = (decodeStepN demoParamsFinish 1
              (initialLoopState demoParamsFinish)).seqLens[0]?)
    ∧ (decodeStepN demoParamsFinish 1
        (initialLoopState demoParamsFinish)).seqLens[0]?
      = some ((decodeStepN demoParamsFinish 0
          (initialLoopState demoParamsFinish)).time + 1) := by
  have h0 := claim3_sequence_lengths demoParamsFinish (fun _ _ _ => rfl) 0 0
  have h1 := claim3_sequence_lengths demoParamsFinish (fun _ _ _ => rfl) 1 0
  exact ⟨h0.1 (by decide), (h1.2.1 3 (by decide) (by decide)),
    h0.2.2 (by decide) (by decide)⟩

/-! ### C5 — stacking and batch-major rearrangement after the loop -/

theorem decode_buffer_lengths (p : DecodeParams α A P β ι) :
    ∀ (n : Nat),
      (decodeStepN p n (initialLoopState p)).outputsTA.length
        = (decodeStepN p n (initialLoopState p)).time
      ∧ (decodeStepN p n (initialLoopState p)).attentionTA.length
        = (decodeStepN p n (initialLoopState p)).time
      ∧ (decodeStepN p n (initialLoopState p)).pGensTA.length
        = (decodeStepN p n (initialLoopState p)).time := by
  have hgen : ∀ (n : Nat) (ls : LoopState α A P β ι),
      ls.outputsTA.length = ls.time → ls.attentionTA.length = ls.time →
      ls.pGensTA.length = ls.time →
      (decodeStepN p n ls).outputsTA.length = (decodeStepN p n ls).time
      ∧ (decodeStepN p n ls).attentionTA.length = (decodeStepN p n ls).time
      ∧ (decodeStepN p n ls).pGensTA.length = (decodeStepN p n ls).time := by
    intro n
    induction n with
    | zero => intro ls h1 h2 h3; exact ⟨h1, h2, h3⟩
    | succ n ih =>
      intro ls h1 h2 h3
      rcases hc : decodeCond ls with _ | _
      · rw [decodeStepN_frozen p (n+1) ls hc]
        exact ⟨h1, h2, h3⟩
      · have hsucc : decodeStepN p (n+1) ls
            = decodeStepN p n (decodeBody p ls) := by
          simp [decodeStepN, hc]
        rw [hsucc]
        refine ih (decodeBody p ls) ?_ ?_ ?_
        · simp [decodeBody, taWrite, h1.symm]
        · simp [decodeBody, taWrite, h2.symm]
        · simp [decodeBody, taWrite, h3.symm]
  intro n
  exact hgen n (initialLoopState p) rfl rfl rfl

/-- Counterexample to C5 as stated: running a batch-two decoder for two steps
with batch-major output requested, the returned rnn outputs are transposed to
batch-major, but the attention buffer is returned raw — time-major
`[[1, 2], [3, 4]]` (step `t`'s emission at index `t`), different from its
batch-major rearrangement — and the copy-gate buffer is likewise returned as
the raw per-step buffer.  Only the rnn outputs and sample ids are stacked and
rearranged; the alignment and copy-gate TensorArrays are returned without
stacking or transposition (dynamic_decoder.py lines 336-352). -/
theorem claim5_counterexample :
    demoParamsTwo.outputTimeMajor = false
    ∧ (dynamic_decode demoParamsTwo 5).finalOutputs = [[10, 11], [20, 21]]
    ∧ (dynamic_decode demoParamsTwo 5).finalAttention = [[1, 2], [3, 4]]
    ∧ (dynamic_decode demoParamsTwo 5).finalAttention
        ≠ List.transpose ((dynamic_decode demoParamsTwo 5).finalAttention)
    ∧ (dynamic_decode demoParamsTwo 5).finalPGens = [0, 1] := by
  refine ⟨rfl, by decide, by decide, by decide, by decide⟩

/-- C5 (amended): after the loop, the rnn-output/sample-id buffer is stacked
in time order (entry `t` is step `t`'s emission, the buffer length equals the
final `time`) and rearranged to batch-major unless time-major output was
requested; the sentence/word-alignment and copy-gate buffers are returned as
the raw time-ordered buffers, with no batch-major rearrangement; the
sequence lengths and final state are returned as they left the loop. -/
theorem claim5_stacking_amended (p : DecodeParams α A P β ι)
    (hfin : p.finalize? = none) (fuel : Nat) :
    (dynamic_decode p fuel).finalOutputs
      = (if p.outputTimeMajor
          then (decodeStepN p fuel (initialLoopState p)).outputsTA
          else (decodeStepN p fuel (initialLoopState p)).outputsTA.transpose)
    ∧ (dynamic_decode p fuel).finalAttention
      = (decodeStepN p fuel (initialLoopState p)).attentionTA
    ∧ (dynamic_decode p fuel).finalPGens
      = (decodeStepN p fuel (initialLoopState p)).pGensTA
    ∧ (dynamic_decode p fuel).finalSeqLens
      = (decodeStepN p fuel (initialLoopState p)).seqLens
    ∧ (dynamic_decode p fuel).finalState
      = (decodeStepN p fuel (initialLoopState p)).state
    ∧ (decodeStepN p fuel (initialLoopState p)).outputsTA.length
      = (decodeStepN p fuel (initialLoopState p)).time
    ∧ (decodeStepN p fuel (initialLoopState p)).attentionTA.length
      = (decodeStepN p fuel (initialLoopState p)).time
    ∧ (decodeStepN p fuel (initialLoopState p)).pGensTA.length
      = (decodeStepN p fuel (initialLoopState p)).time := by
  obtain ⟨hl1, hl2, hl3⟩ := decode_buffer_lengths p fuel
  rcases htm : p.outputTimeMajor with _ | _
  · exact ⟨by simp [dynamic_decode, finalizeDecode, hfin, htm],
      rfl, rfl, rfl, by simp [dynamic_decode, finalizeDecode, hfin],
      hl1, hl2, hl3⟩
  · exact ⟨by simp [dynamic_decode, finalizeDecode, hfin, htm],
      rfl, rfl, rfl, by simp [dynamic_decode, finalizeDecode, hfin],
      hl1, hl2, hl3⟩

/-- Witness for C5 (amended) on the batch-two demo decoder after its two
steps. -/
theorem claim5_stacking_amended_witness :
    demoParamsTwo.finalize? = none
    ∧ (dynamic_decode demoParamsTwo 5).finalOutputs
      = (if demoParamsTwo.outputTimeMajor
          then (decodeStepN demoParamsTwo 5
            (initialLoopState demoParamsTwo)).outputsTA
          else (decodeStepN demoParamsTwo 5
            (initialLoopState demoParamsTwo)).outputsTA.transpose)
    ∧ (dynamic_decode demoParamsTwo 5).finalAttention
      = (decodeStepN demoParamsTwo 5 (initialLoopState demoParamsTwo)).attentionTA
    ∧ (dynamic_decode demoParamsTwo 5).finalPGens
      = (decodeStepN demoParamsTwo 5 (initialLoopState demoParamsTwo)).pGensTA
    ∧ (decodeStepN demoParamsTwo 5
        (initialLoopState demoParamsTwo)).outputsTA.length
      = (decodeStepN demoParamsTwo 5 (initialLoopState demoParamsTwo)).time := by
  have h := claim5_stacking_amended demoParamsTwo rfl 5
  exact ⟨rfl, h.1, h.2.1, h.2.2.1, h.2.2.2.2.2.1⟩

/-! ### C6 — impute-finished zeroes outputs and holds state -/

/-- C6: with impute-finished mode on, at any iteration of the loop body, a
batch element whose finished flag was already set before the step has its
emitted output replaced by the zero output, and every state field that is a
batched tensor (neither a rank-0 scalar nor a TensorArray) keeps that
element's previous value, while scalar and TensorArray fields pass the new
value through. -/
theorem claim6_impute_finished (p : DecodeParams α A P β ι)
    (ls : LoopState α A P β ι) (himp : p.imputeFinished = true) (i : Nat)
    (hfin : ls.finished[i]? = some true) :
    ((decodeBody p ls).outputsTA
      = taWrite ls.outputsTA ls.time
          (decodeEmit p.imputeFinished ls.finished p.zeroOutputs
            (p.step ls.time ls.inputs ls.state).outputs)
      ∧ (decodeBody p ls).state
        = decodeNextState p.imputeFinished ls.finished
            (p.step ls.time ls.inputs ls.state).state ls.state)
    ∧ (∀ (z : α), p.zeroOutputs[i]? = some z →
        i < (p.step ls.time ls.inputs ls.state).outputs.length →
        (decodeEmit p.imputeFinished ls.finished p.zeroOutputs
          (p.step ls.time ls.inputs ls.state).outputs)[i]? = some z)
    ∧ (∀ (j : Nat) (nv cv : List β),
        (p.step ls.time ls.inputs ls.state).state[j]? = some (.batchedF nv) →
        ls.state[j]? = some (.batchedF cv) →
        (decodeNextState p.imputeFinished ls.finished
          (p.step ls.time ls.inputs ls.state).state ls.state)[j]?
            = some (.batchedF (whereList ls.finished cv nv))
        ∧ (∀ (c : β), cv[i]? = some c → i < nv.length →
            (whereList ls.finished cv nv)[i]? = some c))
    ∧ (∀ (j : Nat) (v w : β),
        (p.step ls.time ls.inputs ls.state).state[j]? = some (.scalarF v) →
        ls.state[j]? = some (.scalarF w) →
        (decodeNextState p.imputeFinished ls.finished
          (p.step ls.time ls.inputs ls.state).state ls.state)[j]?
            = some (.scalarF v))
    ∧ (∀ (j : Nat) (vs ws : List β),
        (p.step ls.time ls.inputs ls.state).state[j]? = some (.taF vs) →
        ls.state[j]? = some (.taF ws) →
        (decodeNextState p.imputeFinished ls.finished
          (p.step ls.time ls.inputs ls.state).state ls.state)[j]?
            = some (.taF vs)) := by
  refine ⟨⟨rfl, rfl⟩, ?_, ?_, ?_, ?_⟩
  · intro z hz hlt
    obtain ⟨o, ho⟩ : ∃ o, (p.step ls.time ls.inputs ls.state).outputs[i]?
        = some o := ⟨_, List.getElem?_eq_some.mpr ⟨hlt, rfl⟩⟩
    simp only [decodeEmit, himp, if_true, whereList]
    rw [zipWith3_getElem? _ hfin hz ho]
    simp
  · intro j nv cv hnv hcv
    constructor
    · simp only [decodeNextState, himp, if_true]
      rw [List.getElem?_zipWith, hnv, hcv]
      rfl
    · intro c hc hlt
      obtain ⟨nvi, hnvi⟩ : ∃ x, nv[i]? = some x :=
        ⟨_, List.getElem?_eq_some.mpr ⟨hlt, rfl⟩⟩
      simp only [whereList]
      rw [zipWith3_getElem? _ hfin hc hnvi]
      simp
  · intro j v w hv hw
    simp only [decodeNextState, himp, if_true]
    rw [List.getElem?_zipWith, hv, hw]
    rfl
  · intro j vs ws hv hw
    simp only [decodeNextState, himp, if_true]
    rw [List.getElem?_zipWith, hv, hw]
    rfl

/-- Witness for C6 on the impute-finished demo decoder: batch element 0 is
already finished at the initial state; one body step emits its zero output
and holds its slot of the batched state field at the previous value, while
the scalar and TensorArray fields take the step's new values. -/
theorem claim6_impute_finished_witness :
    demoParamsImpute.imputeFinished = true
    ∧ (initialLoopState demoParamsImpute).finished[0]? = some true
    ∧ (decodeEmit demoParamsImpute.imputeFinished
        (initialLoopState demoParamsImpute).finished
        demoParamsImpute.zeroOutputs
        (demoParamsImpute.step 0 0
          (initialLoopState demoParamsImpute).state).outputs)[0]? = some 0
    ∧ (whereList (initialLoopState demoParamsImpute).finished
        ([4, 3] : List Int) ([9, 8] : List Int))[0]? = some 4
    ∧ (decodeNextState demoParamsImpute.imputeFinished
        (initialLoopState demoParamsImpute).finished
        (demoParamsImpute.step 0 0 (initialLoopState demoParamsImpute).state).state
        (initialLoopState demoParamsImpute).state)[1]? = some (.scalarF 7)
    ∧ (decodeNextState demoParamsImpute.imputeFinished
        (initialLoopState demoParamsImpute).finished
        (demoParamsImpute.step 0 0 (initialLoopState demoParamsImpute).state).state
        (initialLoopState demoParamsImpute).state)[2]? = some (.taF [1, 2]) := by
  have h := claim6_impute_finished demoParamsImpute
    (initialLoopState demoParamsImpute) rfl 0 rfl
  refine ⟨rfl, rfl, ?_, ?_, ?_, ?_⟩
  · exact h.2.1 0 rfl (by decide)
  · exact (h.2.2.1 0 ([9, 8] : List Int) ([4, 3] : List Int) rfl rfl).2 4 rfl
      (by decide)
  · exact h.2.2.2.1 1 7 0 rfl rfl
  · exact h.2.2.2.2 2 [1, 2] [] rfl rfl

end BossNet
